import Mathlib

/-!
Verification of the Veil hybrid cryptosystem (github.com/nvzqz/veil).

The development shallowly embeds the protocol layers of the repository
(`sres`, `mres`, `pbenc`, `schnorr`, key handling) over a symbolic model of
the cryptographic collaborators that the specification deliberately keeps
abstract: the sponge duplex and the prime-order group.

The duplex is modelled as an ideal transcript: its state is a natural number
and every operation mixes an injective encoding of its inputs into the state.
Injectivity gives the ideal-functionality facts the specification relies on
(distinct transcripts never collide, tags from distinct states never match,
decryption under a wrong transcript never yields well-formed bytes), while
every definition stays executable so theorems can be checked on concrete
inputs.  The group is an abstract prime-order group, modelled as `ZMod Q`
written additively with generator `1`, exactly as the specification treats
it ("specified abstractly as a prime-order group").
-/

namespace VeilModel

/-! ## Injective transcript encoding

Lists of naturals are encoded injectively into a single natural.  Each
element is framed as: a self-delimiting base-4 header carrying the element's
base-`CHUNK` digit count (binary digits spread over base-4 digits 0/1,
terminated by the digit 2), followed by the element's raw base-`CHUNK` digits.
The encoding grows linearly with the data, so transcript states stay small
enough to evaluate.  All recursions use explicit fuel so that the kernel can
reduce them on concrete inputs. -/

/-- Chunk base for the raw-digit part of the encoding; written with
`Nat.shiftLeft` so that concrete evaluation is a single machine operation. -/
def CHUNK : ℕ := Nat.shiftLeft 1 128

theorem chunk_eq_pow : CHUNK = 2 ^ 128 := by
  rw [show CHUNK = 1 <<< 128 from rfl, Nat.shiftLeft_eq, one_mul]

theorem chunk_gt_one : 1 < CHUNK := by
  rw [chunk_eq_pow]
  exact Nat.one_lt_two_pow (by norm_num)

/-- Galloping search for an exponent `e` with `k < CHUNK ^ 2 ^ e`: the shift
amount doubles each round, so evaluation depth is logarithmic in the digit
count of `k`.  The fuel bounds the recursion and is never exhausted when
instantiated with `k` itself. -/
def ncExp : ℕ → ℕ → ℕ → ℕ
  | 0, _, e => e
  | f + 1, k, e =>
    if Nat.shiftRight k (128 * Nat.shiftLeft 1 e) = 0 then e else ncExp f k (e + 1)

/-- Base-`CHUNK` digit count of `k` for `k < CHUNK ^ 2 ^ e`, computed by
halving the exponent, so evaluation depth is `e`. -/
def ncAux : ℕ → ℕ → ℕ
  | 0, k => if k = 0 then 0 else 1
  | e + 1, k =>
    let hi := Nat.shiftRight k (128 * Nat.shiftLeft 1 e)
    if hi = 0 then ncAux e k else ncAux e hi + Nat.shiftLeft 1 e

/-- Base-`CHUNK` digit count of `k`: gallop for an exponent budget, then
count exactly.  Evaluation depth is logarithmic in the digit count. -/
def nchunks (k : ℕ) : ℕ := ncAux (ncExp k k 0) k

/-- `CHUNK ^ n`, written with `Nat.shiftLeft` so that concrete evaluation is
a single machine operation. -/
def chunkPow (n : ℕ) : ℕ := Nat.shiftLeft 1 (128 * n)

theorem chunkPow_eq (n : ℕ) : chunkPow n = CHUNK ^ n := by
  rw [show chunkPow n = 1 <<< (128 * n) from rfl, Nat.shiftLeft_eq, one_mul,
    chunk_eq_pow, pow_mul]

theorem nchunks_zero : nchunks 0 = 0 := rfl

theorem shiftRight_pow2 (k e : ℕ) :
    Nat.shiftRight k (128 * Nat.shiftLeft 1 e) = k / CHUNK ^ 2 ^ e := by
  show k >>> (128 * Nat.shiftLeft 1 e) = k / CHUNK ^ 2 ^ e
  rw [Nat.shiftRight_eq_div_pow,
    show (128 * Nat.shiftLeft 1 e) = 128 * 2 ^ e by
      rw [show Nat.shiftLeft 1 e = 1 <<< e from rfl, Nat.shiftLeft_eq, one_mul],
    pow_mul, ← chunk_eq_pow]

theorem chunk_pos : 0 < CHUNK := by have := chunk_gt_one; omega

theorem ncExp_lt : ∀ (f k e : ℕ), k < CHUNK ^ 2 ^ (e + f) →
    k < CHUNK ^ 2 ^ ncExp f k e := by
  intro f
  induction f with
  | zero => intro k e h; exact h
  | succ f ih =>
    intro k e h
    by_cases h0 : Nat.shiftRight k (128 * Nat.shiftLeft 1 e) = 0
    · rw [ncExp, if_pos h0]
      rw [shiftRight_pow2] at h0
      have hpos : 0 < CHUNK ^ 2 ^ e := Nat.pos_pow_of_pos _ chunk_pos
      exact (Nat.div_eq_zero_iff hpos).mp h0
    · rw [ncExp, if_neg h0]
      exact ih k (e + 1) (by rw [show e + 1 + f = e + (f + 1) by omega]; exact h)

theorem ncAux_lt : ∀ (e k : ℕ), k < CHUNK ^ 2 ^ e → k < CHUNK ^ ncAux e k := by
  intro e
  induction e with
  | zero =>
    intro k h
    by_cases hk : k = 0
    · subst hk
      simp [ncAux]
    · rw [ncAux, if_neg hk, pow_one]
      simpa using h
  | succ e ih =>
    intro k h
    have hpos : 0 < CHUNK ^ 2 ^ e := Nat.pos_pow_of_pos _ chunk_pos
    by_cases h0 : Nat.shiftRight k (128 * Nat.shiftLeft 1 e) = 0
    · simp only [ncAux]
      rw [if_pos h0]
      rw [shiftRight_pow2] at h0
      exact ih k ((Nat.div_eq_zero_iff hpos).mp h0)
    · simp only [ncAux]
      rw [if_neg h0, shiftRight_pow2]
      rw [shiftRight_pow2] at h0
      set C := CHUNK ^ 2 ^ e with hC
      have hhi : k / C < C := by
        rw [Nat.div_lt_iff_lt_mul hpos, ← pow_add, ← two_mul, ← pow_succ']
        exact h
      have hih : k / C < CHUNK ^ ncAux e (k / C) := ih _ hhi
      have hsl : Nat.shiftLeft 1 e = 2 ^ e := by
        rw [show Nat.shiftLeft 1 e = 1 <<< e from rfl, Nat.shiftLeft_eq, one_mul]
      rw [hsl, pow_add]
      calc k = C * (k / C) + k % C := (Nat.div_add_mod k C).symm
        _ < C * (k / C) + C := Nat.add_lt_add_left (Nat.mod_lt _ hpos) _
        _ = C * (k / C + 1) := by ring
        _ ≤ C * CHUNK ^ ncAux e (k / C) := Nat.mul_le_mul_left _ hih
        _ = CHUNK ^ ncAux e (k / C) * CHUNK ^ 2 ^ e := by rw [hC]; ring

theorem lt_pow_nchunks (k : ℕ) : k < CHUNK ^ nchunks k := by
  rw [nchunks]
  apply ncAux_lt
  apply ncExp_lt
  rw [Nat.zero_add]
  calc k < 2 ^ k := Nat.lt_two_pow k
    _ ≤ 2 ^ (128 * 2 ^ k) := by
        apply Nat.pow_le_pow_right (by norm_num)
        have h1 : k ≤ 2 ^ k := Nat.le_of_lt (Nat.lt_two_pow k)
        have h2 : (2 : ℕ) ^ k ≤ 128 * 2 ^ k := by omega
        omega
    _ = CHUNK ^ 2 ^ k := by rw [chunk_eq_pow, ← pow_mul]

/-- Base-4 header: the binary digits of `c` as base-4 digits 0/1 (least
significant first), terminated by the base-4 digit 2, prefixed to `r`.
`fuel` bounds the recursion. -/
def encElemAux : ℕ → ℕ → ℕ → ℕ
  | 0, _, r => 2 + 4 * r
  | fuel + 1, c, r => if c = 0 then 2 + 4 * r else c % 2 + 4 * encElemAux fuel (c / 2) r

/-- Base-4 header for count `c` prefixed to stream `r`. -/
def encElem (c r : ℕ) : ℕ := encElemAux c c r

theorem encElemAux_zero (f r : ℕ) : encElemAux f 0 r = 2 + 4 * r := by
  cases f <;> simp [encElemAux]

theorem encElemAux_congr : ∀ {f g c r : ℕ}, c ≤ f → c ≤ g →
    encElemAux f c r = encElemAux g c r := by
  intro f
  induction f with
  | zero =>
    intro g c r hf _
    have : c = 0 := Nat.le_zero.mp hf
    subst this
    rw [encElemAux_zero, encElemAux_zero]
  | succ f ih =>
    intro g c r hf hg
    by_cases hc : c = 0
    · subst hc; rw [encElemAux_zero, encElemAux_zero]
    · obtain ⟨g', rfl⟩ : ∃ g', g = g' + 1 := by
        cases g with
        | zero => exact absurd (Nat.le_zero.mp hg) hc
        | succ g' => exact ⟨g', rfl⟩
      have hdiv : c / 2 < c := Nat.div_lt_self (Nat.pos_of_ne_zero hc) (by norm_num)
      have h1 : c / 2 ≤ f := by omega
      have h2 : c / 2 ≤ g' := by omega
      simp only [encElemAux, if_neg hc]
      rw [ih h1 h2]

theorem encElem_zero (r : ℕ) : encElem 0 r = 2 + 4 * r := rfl

theorem encElem_pos_eq {c : ℕ} (hc : c ≠ 0) (r : ℕ) :
    encElem c r = c % 2 + 4 * encElem (c / 2) r := by
  obtain ⟨c', rfl⟩ : ∃ c', c = c' + 1 := by
    cases c with
    | zero => exact absurd rfl hc
    | succ c' => exact ⟨c', rfl⟩
  show encElemAux (c' + 1) (c' + 1) r = _
  simp only [encElemAux, if_neg hc]
  have hdiv : (c' + 1) / 2 < c' + 1 := Nat.div_lt_self (Nat.succ_pos c') (by norm_num)
  have h1 : (c' + 1) / 2 ≤ c' := by omega
  exact congrArg (fun t => (c' + 1) % 2 + 4 * t) (encElemAux_congr h1 le_rfl)

theorem encElem_pos (c r : ℕ) : 0 < encElem c r := by
  induction c using Nat.strong_induction_on generalizing r with
  | _ c ih =>
    by_cases hc : c = 0
    · subst hc; rw [encElem_zero]; omega
    · rw [encElem_pos_eq hc]
      have hdiv : c / 2 < c := Nat.div_lt_self (Nat.pos_of_ne_zero hc) (by norm_num)
      have := ih _ hdiv r
      omega

theorem encElem_inj : ∀ {c r c' r' : ℕ}, encElem c r = encElem c' r' → c = c' ∧ r = r' := by
  intro c
  induction c using Nat.strong_induction_on with
  | _ c ih =>
    intro r c' r' h
    by_cases hc : c = 0
    · by_cases hc' : c' = 0
      · subst hc; subst hc'
        rw [encElem_zero, encElem_zero] at h
        exact ⟨rfl, by omega⟩
      · subst hc
        rw [encElem_zero, encElem_pos_eq hc'] at h
        have hm : c' % 2 < 2 := Nat.mod_lt _ (by norm_num)
        omega
    · by_cases hc' : c' = 0
      · subst hc'
        rw [encElem_pos_eq hc, encElem_zero] at h
        have hm : c % 2 < 2 := Nat.mod_lt _ (by norm_num)
        omega
      · rw [encElem_pos_eq hc, encElem_pos_eq hc'] at h
        have hm : c % 2 < 2 := Nat.mod_lt _ (by norm_num)
        have hm' : c' % 2 < 2 := Nat.mod_lt _ (by norm_num)
        have hmod : c % 2 = c' % 2 := by omega
        have hrec : encElem (c / 2) r = encElem (c' / 2) r' := by omega
        have hdiv : c / 2 < c := Nat.div_lt_self (Nat.pos_of_ne_zero hc) (by norm_num)
        obtain ⟨hd, hr⟩ := ih _ hdiv hrec
        constructor
        · omega
        · exact hr

/-- The list encoding as a right fold, the form the injectivity proofs
use: each element is framed with a base-4 header carrying its base-`CHUNK`
digit count, followed by its raw base-`CHUNK` digits. -/
def encLRec : List ℕ → ℕ
  | [] => 0
  | k :: l => encElem (nchunks k) (k + chunkPow (nchunks k) * encLRec l)

theorem encLRec_cons_pos (k : ℕ) (l : List ℕ) : 0 < encLRec (k :: l) := encElem_pos _ _

theorem encLRec_inj : ∀ {l1 l2 : List ℕ}, encLRec l1 = encLRec l2 → l1 = l2 := by
  intro l1
  induction l1 with
  | nil =>
    intro l2 h
    cases l2 with
    | nil => rfl
    | cons k l => exact absurd h.symm (Nat.ne_of_gt (encLRec_cons_pos k l))
  | cons k l ih =>
    intro l2 h
    cases l2 with
    | nil => exact absurd h (Nat.ne_of_gt (encLRec_cons_pos k l))
    | cons k' l' =>
      obtain ⟨hc, hr⟩ := encElem_inj h
      set M := chunkPow (nchunks k) with hM
      have hk : k < M := by rw [hM, chunkPow_eq]; exact lt_pow_nchunks k
      have hk' : k' < M := by rw [hM, hc, chunkPow_eq]; exact lt_pow_nchunks k'
      rw [← hc] at hr
      have hkk : k = k' := by
        have h1 := congrArg (· % M) hr
        simp only [Nat.add_mul_mod_self_left] at h1
        rwa [Nat.mod_eq_of_lt hk, Nat.mod_eq_of_lt hk'] at h1
      subst hkk
      have hMpos : 0 < M := by
        rw [hM, chunkPow_eq]
        exact Nat.pos_pow_of_pos _ (by have := chunk_gt_one; omega)
      have hrest : encLRec l = encLRec l' := by
        have := Nat.add_left_cancel hr
        exact Nat.eq_of_mul_eq_mul_left hMpos this
      rw [ih hrest]

/-- Number of base-4 digits the header of a count `c` occupies; `fuel`
bounds the recursion. -/
def hlenAux : ℕ → ℕ → ℕ
  | 0, _ => 1
  | f + 1, c => if c = 0 then 1 else 1 + hlenAux f (c / 2)

theorem hlenAux_zero (f : ℕ) : hlenAux f 0 = 1 := by
  cases f <;> simp [hlenAux]

/-- `encElemAux` is affine in its stream argument, with the header's digit
count as the exponent of the coefficient. -/
theorem shiftLeft_two : Nat.shiftLeft 1 2 = 4 := rfl

theorem encElemAux_affine : ∀ (f c r : ℕ),
    encElemAux f c r = encElemAux f c 0 + Nat.shiftLeft 1 (2 * hlenAux f c) * r := by
  intro f
  induction f with
  | zero =>
    intro c r
    show 2 + 4 * r = 2 + 4 * 0 + Nat.shiftLeft 1 (2 * 1) * r
    rw [show 2 * 1 = 2 by norm_num, shiftLeft_two]
  | succ f ih =>
    intro c r
    by_cases hc : c = 0
    · subst hc
      rw [encElemAux_zero, encElemAux_zero, hlenAux_zero, show 2 * 1 = 2 by norm_num,
        shiftLeft_two]
    · show (if c = 0 then 2 + 4 * r else c % 2 + 4 * encElemAux f (c / 2) r) = _
      rw [if_neg hc]
      conv =>
        rhs
        rw [show encElemAux (f + 1) c 0 =
          (if c = 0 then 2 + 4 * 0 else c % 2 + 4 * encElemAux f (c / 2) 0) from rfl, if_neg hc]
      rw [show hlenAux (f + 1) c = (if c = 0 then 1 else 1 + hlenAux f (c / 2)) from rfl,
        if_neg hc]
      rw [ih (c / 2) r]
      have hsl : ∀ m : ℕ, Nat.shiftLeft 1 (2 * (1 + m)) = 4 * Nat.shiftLeft 1 (2 * m) := by
        intro m
        show (1 <<< (2 * (1 + m)) : ℕ) = 4 * (1 <<< (2 * m))
        rw [Nat.shiftLeft_eq, Nat.shiftLeft_eq, one_mul, one_mul,
          show 2 * (1 + m) = 2 + 2 * m by ring, pow_add]
        norm_num
      rw [hsl]
      ring

/-- Strict application of a natural: forces the argument to a literal before
continuing, keeping kernel evaluation of long accumulations iterative. -/
def withNat {α : Type} (n : ℕ) (f : ℕ → α) : α :=
  match n with
  | 0 => f 0
  | m + 1 => f (m + 1)

theorem withNat_eq {α : Type} (n : ℕ) (f : ℕ → α) : withNat n f = f n := by
  cases n <;> rfl

/-- Left-accumulating form of the list encoding: `acc` holds the already
encoded prefix and `w` the weight of the next frame, both forced to literals
at every step so that concrete evaluation is iterative with bounded stack. -/
def encLAux : List ℕ → ℕ → ℕ → ℕ
  | [], acc, _ => acc
  | k :: l, acc, w =>
    withNat (acc + w * (encElem (nchunks k) 0 +
        Nat.shiftLeft 1 (2 * hlenAux (nchunks k) (nchunks k)) * k)) fun a =>
      withNat (w * (Nat.shiftLeft 1 (2 * hlenAux (nchunks k) (nchunks k)) *
          chunkPow (nchunks k))) fun w2 =>
        encLAux l a w2

/-- Injective encoding of a list of naturals into a natural. -/
def encL (l : List ℕ) : ℕ := encLAux l 0 1

theorem encLAux_eq : ∀ (l : List ℕ) (acc w : ℕ),
    encLAux l acc w = acc + w * encLRec l := by
  intro l
  induction l with
  | nil => intro acc w; simp [encLAux, encLRec]
  | cons k t ih =>
    intro acc w
    rw [encLAux, withNat_eq, withNat_eq, ih]
    conv =>
      rhs
      rw [show encLRec (k :: t) = encElem (nchunks k) (k + chunkPow (nchunks k) * encLRec t)
        from rfl]
    simp only [encElem]
    rw [encElemAux_affine (nchunks k) (nchunks k) (k + chunkPow (nchunks k) * encLRec t)]
    ring

theorem encL_eq_rec (l : List ℕ) : encL l = encLRec l := by
  rw [encL, encLAux_eq]
  omega

theorem encL_cons_pos (k : ℕ) (l : List ℕ) : 0 < encL (k :: l) := by
  rw [encL_eq_rec]
  exact encLRec_cons_pos k l

theorem encL_inj {l1 l2 : List ℕ} (h : encL l1 = encL l2) : l1 = l2 := by
  rw [encL_eq_rec, encL_eq_rec] at h
  exact encLRec_inj h

attribute [irreducible] ncExp ncAux nchunks chunkPow hlenAux encElemAux encElem withNat encLAux encL

/-! ## Symbolic bytes

A byte travelling through the system is either a raw octet-like value, a
byte encrypted under a keystream word, or the formal decryption of a byte
under a non-matching keystream word.  Decrypting under the keystream a byte
was encrypted with recovers it; decrypting under any other keystream yields
a marked junk value that no decoder accepts.  This is the standard symbolic
(ideal-cipher) reading of the duplex contract the specification gives. -/

inductive Sym where
  | raw : ℕ → Sym
  | enc : Sym → ℕ → Sym
  | dec : Sym → ℕ → Sym
deriving DecidableEq, Repr

/-- Injective pairing built on the list encoding. -/
def pairN (a b : ℕ) : ℕ := encL [a, b]

theorem pairN_inj {a b a2 b2 : ℕ} (h : pairN a b = pairN a2 b2) : a = a2 ∧ b = b2 := by
  have := encL_inj h
  simp only [List.cons.injEq, and_true] at this
  exact this

/-- Injective encoding of a symbolic byte into a natural, tagged mod 3 so
that raw octets stay octet-sized. -/
def encSym : Sym → ℕ
  | .raw n => 3 * n
  | .enc b k => 3 * pairN (encSym b) k + 1
  | .dec b k => 3 * pairN (encSym b) k + 2

theorem encSym_inj : ∀ {b1 b2 : Sym}, encSym b1 = encSym b2 → b1 = b2 := by
  intro b1
  induction b1 with
  | raw n =>
    intro b2 h
    cases b2 with
    | raw m =>
      simp only [encSym] at h
      have : n = m := by omega
      rw [this]
    | enc b k => simp only [encSym] at h; exact absurd h (by omega)
    | dec b k => simp only [encSym] at h; exact absurd h (by omega)
  | enc b k ih =>
    intro b2 h
    cases b2 with
    | raw m => simp only [encSym] at h; exact absurd h (by omega)
    | enc b2 k2 =>
      simp only [encSym] at h
      have hp : pairN (encSym b) k = pairN (encSym b2) k2 := by omega
      obtain ⟨hb, hk⟩ := pairN_inj hp
      rw [ih hb, hk]
    | dec b2 k2 => simp only [encSym] at h; exact absurd h (by omega)
  | dec b k ih =>
    intro b2 h
    cases b2 with
    | raw m => simp only [encSym] at h; exact absurd h (by omega)
    | enc b2 k2 => simp only [encSym] at h; exact absurd h (by omega)
    | dec b2 k2 =>
      simp only [encSym] at h
      have hp : pairN (encSym b) k = pairN (encSym b2) k2 := by omega
      obtain ⟨hb, hk⟩ := pairN_inj hp
      rw [ih hb, hk]

theorem map_encSym_inj : ∀ {l1 l2 : List Sym}, l1.map encSym = l2.map encSym → l1 = l2 := by
  intro l1
  induction l1 with
  | nil =>
    intro l2 hm
    cases l2 with
    | nil => rfl
    | cons b t => simp at hm
  | cons b t ih =>
    intro l2 hm
    cases l2 with
    | nil => simp at hm
    | cons b2 t2 =>
      simp only [List.map_cons, List.cons.injEq] at hm
      rw [encSym_inj hm.1, ih hm.2]

/-- Extract the underlying raw octet values of a byte string, failing if any
byte is not a raw value. -/
def unraw : List Sym → Option (List ℕ)
  | [] => some []
  | .raw n :: t => (unraw t).map (n :: ·)
  | .enc _ _ :: _ => none
  | .dec _ _ :: _ => none

theorem unraw_map_raw (l : List ℕ) : unraw (l.map .raw) = some l := by
  induction l with
  | nil => rfl
  | cons n t ih => simp [unraw, ih]

theorem unraw_eq_some : ∀ {l : List Sym} {bs : List ℕ}, unraw l = some bs →
    l = bs.map Sym.raw := by
  intro l
  induction l with
  | nil =>
    intro bs h
    have h2 : some [] = some bs := h
    cases h2
    rfl
  | cons b t ih =>
    intro bs h
    cases b with
    | raw n =>
      simp only [unraw] at h
      cases hu : unraw t with
      | none => rw [hu] at h; simp at h
      | some ts =>
        rw [hu] at h
        simp only [Option.map, Option.some.injEq] at h
        subst h
        simp only [List.map_cons, List.cons.injEq, true_and]
        exact ih hu
    | enc b2 k => simp [unraw] at h
    | dec b2 k => simp [unraw] at h

/-! ## Little-endian octet strings -/

/-- Little-endian base-256 digits of `v`, `n` octets long. -/
def toLE : ℕ → ℕ → List ℕ
  | 0, _ => []
  | n + 1, v => v % 256 :: toLE n (v / 256)

/-- Value of a little-endian base-256 octet string. -/
def fromLE : List ℕ → ℕ
  | [] => 0
  | b :: t => b + 256 * fromLE t

theorem toLE_length (n v : ℕ) : (toLE n v).length = n := by
  induction n generalizing v with
  | zero => rfl
  | succ n ih => simp [toLE, ih]

theorem fromLE_toLE {n v : ℕ} (h : v < 256 ^ n) : fromLE (toLE n v) = v := by
  induction n generalizing v with
  | zero => interval_cases v; rfl
  | succ n ih =>
    have hdiv : v / 256 < 256 ^ n := by
      rw [Nat.div_lt_iff_lt_mul (by norm_num)]
      calc v < 256 ^ (n + 1) := h
        _ = 256 ^ n * 256 := by ring
    simp only [toLE, fromLE, ih hdiv]
    omega

theorem fromLE_inj : ∀ {l1 l2 : List ℕ}, l1.length = l2.length →
    (∀ x ∈ l1, x < 256) → (∀ x ∈ l2, x < 256) → fromLE l1 = fromLE l2 → l1 = l2 := by
  intro l1
  induction l1 with
  | nil =>
    intro l2 hlen _ _ _
    cases l2 with
    | nil => rfl
    | cons b t => simp at hlen
  | cons b t ih =>
    intro l2 hlen h1 h2 hv
    cases l2 with
    | nil => simp at hlen
    | cons b2 t2 =>
      simp only [fromLE] at hv
      have hb : b < 256 := h1 b (by simp)
      have hb2 : b2 < 256 := h2 b2 (by simp)
      have hbb : b = b2 := by omega
      have htt : fromLE t = fromLE t2 := by omega
      have h1t : ∀ x ∈ t, x < 256 := fun x hx => h1 x (by simp [hx])
      have h2t : ∀ x ∈ t2, x < 256 := fun x hx => h2 x (by simp [hx])
      rw [hbb, ih (by simpa using hlen) h1t h2t htt]

/-- Test that every entry of a list is octet-sized. -/
def bytesLT (l : List ℕ) : Bool := l.all (fun x => decide (x < 256))

/-- Injective encoding of a list of symbolic bytes into a natural.  Plain
octet strings (the overwhelmingly common case) are packed into a single
base-256 value to keep transcript states small; anything else falls back to
the elementwise encoding. -/
def encData (l : List Sym) : ℕ :=
  match unraw l with
  | some bs => if bytesLT bs then encL [0, fromLE bs, bs.length] else encL (1 :: l.map encSym)
  | none => encL (1 :: l.map encSym)

theorem encData_compact {l : List Sym} {bs : List ℕ} (hu : unraw l = some bs)
    (hb : bytesLT bs = true) : encData l = encL [0, fromLE bs, bs.length] := by
  unfold encData
  rw [hu]
  exact if_pos hb

theorem encData_fallback {l : List Sym} (h : ∀ bs, unraw l = some bs → bytesLT bs = false) :
    encData l = encL (1 :: l.map encSym) := by
  unfold encData
  cases hu : unraw l with
  | some bs => exact if_neg (by simp [h bs hu])
  | none => rfl

theorem encData_inj {l1 l2 : List Sym} (h : encData l1 = encData l2) : l1 = l2 := by
  have hfb : ∀ l : List Sym, (∀ bs, unraw l = some bs → bytesLT bs = false) ∨
      ∃ bs, unraw l = some bs ∧ bytesLT bs = true := by
    intro l
    cases hu : unraw l with
    | some bs =>
      cases hb : bytesLT bs with
      | false =>
        left
        intro bs2 hu2
        cases hu2
        exact hb
      | true => exact Or.inr ⟨bs, rfl, hb⟩
    | none =>
      left
      intro bs2 hu2
      cases hu2
  rcases hfb l1 with h1 | ⟨bs1, hu1, hb1⟩
  · rcases hfb l2 with h2 | ⟨bs2, hu2, hb2⟩
    · rw [encData_fallback h1, encData_fallback h2] at h
      have hl := encL_inj h
      simp only [List.cons.injEq, true_and] at hl
      exact map_encSym_inj hl
    · rw [encData_fallback h1, encData_compact hu2 hb2] at h
      have hl := encL_inj h
      simp at hl
  · rcases hfb l2 with h2 | ⟨bs2, hu2, hb2⟩
    · rw [encData_compact hu1 hb1, encData_fallback h2] at h
      have hl := encL_inj h
      simp at hl
    · rw [encData_compact hu1 hb1, encData_compact hu2 hb2] at h
      have hl := encL_inj h
      simp only [List.cons.injEq, and_true] at hl
      obtain ⟨-, hval, hlen⟩ := hl
      have hall1 : ∀ x ∈ bs1, x < 256 := by
        intro x hx
        have := List.all_eq_true.mp hb1 x hx
        simpa using this
      have hall2 : ∀ x ∈ bs2, x < 256 := by
        intro x hx
        have := List.all_eq_true.mp hb2 x hx
        simpa using this
      have hbs : bs1 = bs2 := fromLE_inj hlen hall1 hall2 hval
      rw [unraw_eq_some hu1, unraw_eq_some hu2, hbs]

/-! ## The ideal duplex

The `src` crate's `duplex` module is not present in the repository sources
(only its callers are), so the duplex is modelled from the specification's
duplex contract (§4.1): a stateful transcript offering absorb, squeeze,
encrypt/decrypt (length-preserving), seal/unseal (tag-checked), ratchet,
rekey and hedge, with domain separation by construction label.  The state is
a natural number; every operation mixes an injective encoding of its inputs
into the state, making the transcript ideal (collision-free). -/

/-- Mix data into a duplex state, injectively. -/
def mixOp (st : ℕ) (args : List ℕ) : ℕ := encL (st :: args)

theorem mixOp_inj {st st' : ℕ} {a a' : List ℕ} (h : mixOp st a = mixOp st' a') :
    st = st' ∧ a = a' := by
  have := encL_inj h
  simp only [List.cons.injEq] at this
  exact this

/-- Encoding of a label string, used for domain separation. -/
def encStr (s : String) : ℕ := encL (s.data.map Char.toNat)

/-- Modelled from the spec: a fresh duplex initialised with a domain
separation label (§4.1). -/
def dupNew (domain : String) : ℕ := encL [encStr domain]

/-- Modelled from the spec: absorb a byte string into the transcript. -/
def dupAbsorb (st : ℕ) (data : List Sym) : ℕ := mixOp st [1, encData data]

/-- Injective keystream word derived from the current state; one word keys
each encryption operation. -/
def dupKeyStream (st : ℕ) : ℕ := mixOp st [2]

/-- Lossy digest word of the state, used for bulk squeezed output so that
squeezed bytes stay small.  The modulus is a 64-bit prime so that every bit
of the state influences the digest. -/
def dupDigest (st : ℕ) : ℕ := st % (2 ^ 64 - 59)

/-- Modelled from the spec: squeeze `n` bytes from the duplex.  The first
byte carries a state-derived digest word; the rest pad with zeros. -/
def dupSqueeze (st : ℕ) : ℕ → List Sym
  | 0 => []
  | n + 1 => .raw (dupDigest st) :: List.replicate n (.raw 0)

/-- State advance after a squeeze of `n` bytes. -/
def dupSqueezeSt (st n : ℕ) : ℕ := mixOp st [3, n]

/-- State advance after an encryption or a decryption; both sides absorb the
plaintext-side bytes, keeping them synchronised on honest runs. -/
def dupCryptSt (st : ℕ) (pt : List Sym) : ℕ := mixOp st [4, encData pt]

/-- Symbolic stream encryption: the head byte is wrapped under the
operation's keystream word, the remaining bytes under the word 0. -/
def encHead (k : ℕ) : List Sym → List Sym
  | [] => []
  | p :: rest => .enc p k :: rest.map (.enc · 0)

/-- Symbolic decryption of one byte under keystream word `k`: recovers the
byte iff it was encrypted under `k`, and yields marked junk otherwise. -/
def symDec (k : ℕ) : Sym → Sym
  | .enc b k2 => if k2 = k then b else .dec (.enc b k2) k
  | b => .dec b k

/-- Symbolic stream decryption, mirroring `encHead`. -/
def decHead (k : ℕ) : List Sym → List Sym
  | [] => []
  | c :: rest => symDec k c :: rest.map (symDec 0)

theorem decHead_encHead (k : ℕ) (pt : List Sym) : decHead k (encHead k pt) = pt := by
  cases pt with
  | nil => rfl
  | cons p rest =>
    have hmap : ∀ l : List Sym, l.map (symDec 0 ∘ fun x => Sym.enc x 0) = l := by
      intro l
      induction l with
      | nil => rfl
      | cons b t ih =>
        simp only [List.map_cons, Function.comp_apply]
        rw [ih]
        simp [symDec]
    simp only [encHead, decHead, List.map_map, hmap]
    simp [symDec]

theorem encHead_length (k : ℕ) (pt : List Sym) : (encHead k pt).length = pt.length := by
  cases pt <;> simp [encHead]

theorem decHead_length (k : ℕ) (ct : List Sym) : (decHead k ct).length = ct.length := by
  cases ct <;> simp [decHead]

/-- Modelled from the spec: length-preserving encryption without a tag. -/
def dupEncrypt (st : ℕ) (pt : List Sym) : List Sym × ℕ :=
  (encHead (dupKeyStream st) pt, dupCryptSt st pt)

/-- Modelled from the spec: length-preserving decryption without a tag. -/
def dupDecrypt (st : ℕ) (ct : List Sym) : List Sym × ℕ :=
  let pt := decHead (dupKeyStream st) ct
  (pt, dupCryptSt st pt)

theorem dupDecrypt_dupEncrypt (st : ℕ) (pt : List Sym) :
    dupDecrypt st (dupEncrypt st pt).1 = (pt, (dupEncrypt st pt).2) := by
  simp [dupEncrypt, dupDecrypt, decHead_encHead]

/-- Length of an authentication tag in bytes (`TAG_LEN`). -/
def TAG_LEN : ℕ := 16

/-- Tag squeezed from the current state. -/
def dupTag (st : ℕ) : List Sym :=
  Sym.raw (mixOp st [5]) :: List.replicate (TAG_LEN - 1) (.raw 0)

/-- State advance after a tag squeeze. -/
def dupTagSt (st : ℕ) : ℕ := mixOp st [6]

/-- Modelled from the spec: authenticated encryption `seal(pt) = ct ‖ tag`. -/
def dupSeal (st : ℕ) (pt : List Sym) : List Sym × ℕ :=
  let ec := dupEncrypt st pt
  (ec.1 ++ dupTag ec.2, dupTagSt ec.2)

/-- Modelled from the spec: `unseal(ct ‖ tag)` returns the plaintext iff the
tag matches, and the absent value otherwise. -/
def dupUnseal (st : ℕ) (ct : List Sym) : Option (List Sym) × ℕ :=
  let body := ct.take (ct.length - TAG_LEN)
  let tag := ct.drop (ct.length - TAG_LEN)
  let dc := dupDecrypt st body
  (if tag = dupTag dc.2 then some dc.1 else none, dupTagSt dc.2)

theorem dupUnseal_dupSeal (st : ℕ) (pt : List Sym) :
    dupUnseal st (dupSeal st pt).1 = (some pt, (dupSeal st pt).2) := by
  have hlen : (dupSeal st pt).1.length = pt.length + TAG_LEN := by
    simp [dupSeal, dupEncrypt, dupTag, TAG_LEN, encHead_length]
  have hbody : (dupSeal st pt).1.take ((dupSeal st pt).1.length - TAG_LEN)
      = (dupEncrypt st pt).1 := by
    rw [hlen]
    simp only [Nat.add_sub_cancel, dupSeal]
    rw [List.take_append_of_le_length (by simp [dupEncrypt, encHead_length])]
    simp [dupEncrypt, encHead_length]
  have htag : (dupSeal st pt).1.drop ((dupSeal st pt).1.length - TAG_LEN)
      = dupTag (dupEncrypt st pt).2 := by
    rw [hlen]
    simp only [Nat.add_sub_cancel, dupSeal]
    rw [List.drop_append_of_le_length (by simp [dupEncrypt, encHead_length])]
    simp [dupEncrypt, encHead_length]
  simp only [dupUnseal, hbody, htag, dupDecrypt_dupEncrypt, if_pos rfl]
  rfl

/-- Modelled from the spec: ratchet irreversibly advances the state. -/
def dupRatchet (st : ℕ) : ℕ := mixOp st [7]

/-- Modelled from the spec: rekey absorbs a fresh key. -/
def dupRekey (st : ℕ) (k : List Sym) : ℕ := mixOp st [8, encData k]

/-- Modelled from the spec: the one-way transition from unkeyed to keyed. -/
def dupIntoKeyed (st : ℕ) : ℕ := mixOp st [9]

/-! ## The abstract prime-order group

The specification treats the elliptic curve abstractly ("a prime-order group
G of order q with generator B", §3); the concrete curve library is an
external collaborator.  The group is modelled as `ZMod Q` for a prime `Q`,
written additively, with generator `Gpt = 1`; scalar multiplication of a
point is ring multiplication.  Canonical encodings are 32-byte little-endian
strings of the representative, and decoding rejects non-canonical values,
exactly as the specification requires. -/

/-- Length of an encoded point in bytes (`POINT_LEN`). -/
def POINT_LEN : ℕ := 32

/-- Length of an encoded scalar in bytes (`SCALAR_LEN`). -/
def SCALAR_LEN : ℕ := 32

/-- The group generator `B`. -/
def Gpt (Q : ℕ) : ZMod Q := 1

/-- Canonical 32-byte little-endian encoding of a group element. -/
def pointEnc {Q : ℕ} (p : ZMod Q) : List Sym := (toLE POINT_LEN (ZMod.val p)).map .raw

/-- Canonical 32-byte little-endian encoding of a scalar. -/
def scalarEnc {Q : ℕ} (d : ZMod Q) : List Sym := (toLE SCALAR_LEN (ZMod.val d)).map .raw

/-- Decode a byte string as a group element, rejecting wrong lengths and
non-canonical values (the identity is filtered separately by callers, as in
the source). -/
def decodePoint (Q : ℕ) (l : List Sym) : Option (ZMod Q) :=
  match unraw l with
  | none => none
  | some bs =>
    if bs.length = POINT_LEN ∧ fromLE bs < Q then some ((fromLE bs : ℕ) : ZMod Q) else none

/-- Decode a byte string as a scalar, rejecting wrong lengths and
non-canonical values. -/
def decodeScalar (Q : ℕ) (l : List Sym) : Option (ZMod Q) :=
  match unraw l with
  | none => none
  | some bs =>
    if bs.length = SCALAR_LEN ∧ fromLE bs < Q then some ((fromLE bs : ℕ) : ZMod Q) else none

theorem pointEnc_length {Q : ℕ} (p : ZMod Q) : (pointEnc p).length = POINT_LEN := by
  simp [pointEnc, toLE_length]

theorem scalarEnc_length {Q : ℕ} (d : ZMod Q) : (scalarEnc d).length = SCALAR_LEN := by
  simp [scalarEnc, toLE_length]

theorem decodePoint_pointEnc {Q : ℕ} [NeZero Q] (hQ : Q < 256 ^ 32) (p : ZMod Q) :
    decodePoint Q (pointEnc p) = some p := by
  have hval : ZMod.val p < Q := ZMod.val_lt p
  have hlt : ZMod.val p < 256 ^ 32 := lt_trans hval hQ
  simp only [decodePoint, pointEnc, POINT_LEN, unraw_map_raw, toLE_length,
    fromLE_toLE hlt]
  rw [if_pos ⟨trivial, hval⟩, ZMod.natCast_val, ZMod.cast_id]

theorem decodeScalar_scalarEnc {Q : ℕ} [NeZero Q] (hQ : Q < 256 ^ 32) (d : ZMod Q) :
    decodeScalar Q (scalarEnc d) = some d := by
  have hval : ZMod.val d < Q := ZMod.val_lt d
  have hlt : ZMod.val d < 256 ^ 32 := lt_trans hval hQ
  simp only [decodeScalar, scalarEnc, SCALAR_LEN, unraw_map_raw, toLE_length,
    fromLE_toLE hlt]
  rw [if_pos ⟨trivial, hval⟩, ZMod.natCast_val, ZMod.cast_id]

/-- Modelled from the spec: `squeeze_scalar` extracts a non-zero scalar from
the duplex by reject-zero sampling (§4.1); resampling is modelled by
substituting 1 when the reduced word is zero. -/
def squeezeScalarNZ (Q : ℕ) (st : ℕ) : ZMod Q × ℕ :=
  let v : ZMod Q := ((dupDigest st : ℕ) : ZMod Q)
  (if v = 0 then 1 else v, dupSqueezeSt st SCALAR_LEN)

theorem squeezeScalarNZ_ne_zero (Q : ℕ) [Fact (Nat.Prime Q)] (st : ℕ) :
    (squeezeScalarNZ Q st).1 ≠ 0 := by
  simp only [squeezeScalarNZ]
  split
  · exact one_ne_zero
  · assumption

/-! ## Hedged commitment derivation and `sign_duplex`

`sres.rs` calls `schnorr::sign_duplex(&mut sres, rng, d_s)`; the revision of
`schnorr` matching that call is not among the repository sources, so it is
modelled from the specification (§4.4): clone the duplex, derive a
commitment scalar `k` via `hedge(rng, d, squeeze_scalar)`, encrypt `I = k·B`
into the clone, squeeze a challenge `r`, compute `s = d·r + k`, retry on
`s = 0`, and commit the clone.  The RNG is an explicit stream of 64-byte
draws, one per attempt, and a fuel bound makes the retry loop total. -/

/-- Modelled from the spec: `hedge` absorbs the secret and a 64-byte random
draw into a clone of the duplex (§4.1); this is the clone's state.  The
caller's own state is unchanged by construction. -/
def hedgeClone (st : ℕ) (secret : List Sym) (rnd : List ℕ) : ℕ :=
  dupAbsorb (dupAbsorb st secret) (rnd.map .raw)

/-- One attempt of the modelled `sign_duplex` body: derive `k` by hedging,
encrypt the commitment point, squeeze the challenge, compute the proof
scalar.  Returns the encrypted commitment, the proof scalar, and the
committed clone state. -/
def signAttempt (Q : ℕ) (st : ℕ) (d : ZMod Q) (rnd : List ℕ) :
    (List Sym × ZMod Q) × ℕ :=
  let k := (squeezeScalarNZ Q (hedgeClone st (scalarEnc d) rnd)).1
  let i : ZMod Q := k * Gpt Q
  let ec := dupEncrypt st (pointEnc i)
  let rs := squeezeScalarNZ Q ec.2
  let s := d * rs.1 + k
  ((ec.1, s), rs.2)

/-- Modelled from the spec: the `sign_duplex` retry loop, with fuel. -/
def signDuplexAux (Q : ℕ) : ℕ → ℕ → ZMod Q → (ℕ → List ℕ) → ℕ →
    Option ((List Sym × ZMod Q) × ℕ)
  | 0, _, _, _, _ => none
  | fuel + 1, st, d, rng, attempt =>
    let a := signAttempt Q st d (rng attempt)
    if a.1.2 = 0 then signDuplexAux Q fuel st d rng (attempt + 1) else some a

/-! ## `sres` — single-receiver signcryption (src/sres.rs)

Faithful embedding of `sres::encrypt` and `sres::decrypt`.  The nonce is a
list of octets, the plaintext a byte string.  `OVERHEAD = 3 · POINT_LEN`. -/

/-- Number of bytes `sres::encrypt` adds to a plaintext. -/
def sresOVERHEAD : ℕ := POINT_LEN + POINT_LEN + POINT_LEN

/-- State of the `veil.sres` duplex after the four initial absorbs and the
transition to keyed, shared verbatim between encryption and decryption. -/
def sresInit (Q : ℕ) (q_s q_r : ZMod Q) (nonce : List ℕ) (ecdh : ZMod Q) : ℕ :=
  dupIntoKeyed
    (dupAbsorb
      (dupAbsorb
        (dupAbsorb
          (dupAbsorb (dupNew "veil.sres") (pointEnc q_s))
          (pointEnc q_r))
        (nonce.map .raw))
      (pointEnc ecdh))

/-- Embedding of `sres::encrypt` (src/sres.rs).  Returns the ciphertext, or
the absent value if the modelled `sign_duplex` retry fuel runs out. -/
def sresEncrypt (Q : ℕ) (fuel : ℕ) (rng : ℕ → List ℕ)
    (d_s q_s d_e q_e q_r : ZMod Q) (nonce : List ℕ) (pt : List Sym) :
    Option (List Sym) :=
  let st5 := sresInit Q q_s q_r nonce (q_r * d_s)
  let ec1 := dupEncrypt st5 (pointEnc q_e)
  let st6 := dupAbsorb ec1.2 (pointEnc (q_r * d_e))
  let ec2 := dupEncrypt st6 pt
  match signDuplexAux Q fuel ec2.2 d_s rng 0 with
  | none => none
  | some ((ict, s), st7) =>
    let x := q_r * s
    let ec3 := dupEncrypt st7 (pointEnc x)
    some (ec1.1 ++ (ec2.1 ++ (ict ++ ec3.1)))

/-- Embedding of `sres::decrypt` (src/sres.rs). -/
def sresDecrypt (Q : ℕ) (d_r q_r q_s : ZMod Q) (nonce : List ℕ) (ct : List Sym) :
    Option (ZMod Q × List Sym) :=
  if ct.length < sresOVERHEAD then none else
  let qeCt := ct.take POINT_LEN
  let rest := ct.drop POINT_LEN
  let body := rest.take (rest.length - (POINT_LEN + POINT_LEN))
  let tail := rest.drop (rest.length - (POINT_LEN + POINT_LEN))
  let iCt := tail.take POINT_LEN
  let xCt := tail.drop POINT_LEN
  let st5 := sresInit Q q_s q_r nonce (q_s * d_r)
  let dc1 := dupDecrypt st5 qeCt
  match decodePoint Q dc1.1 with
  | none => none
  | some q_e =>
    if q_e = 0 then none else
    let st6 := dupAbsorb dc1.2 (pointEnc (q_e * d_r))
    let dc2 := dupDecrypt st6 body
    let dc3 := dupDecrypt dc2.2 iCt
    match decodePoint Q dc3.1 with
    | none => none
    | some i =>
      if i = 0 then none else
      let rs := squeezeScalarNZ Q dc3.2
      let dc4 := dupDecrypt rs.2 xCt
      match decodePoint Q dc4.1 with
      | none => none
      | some x =>
        if x = 0 then none else
        let x_p := d_r * (i + rs.1 * q_s)
        if x = x_p then some (q_e, dc2.1) else none

theorem signDuplexAux_some {Q fuel st attempt : ℕ} {d : ZMod Q} {rng : ℕ → List ℕ}
    {res : (List Sym × ZMod Q) × ℕ} (h : signDuplexAux Q fuel st d rng attempt = some res) :
    ∃ rnd, signAttempt Q st d rnd = res ∧ res.1.2 ≠ 0 := by
  induction fuel generalizing attempt with
  | zero => simp [signDuplexAux] at h
  | succ fuel ih =>
    simp only [signDuplexAux] at h
    by_cases hz : (signAttempt Q st d (rng attempt)).1.2 = 0
    · rw [if_pos hz] at h
      exact ih h
    · rw [if_neg hz] at h
      cases h
      exact ⟨rng attempt, rfl, hz⟩

theorem take_app {α : Type} (l1 l2 : List α) {n : ℕ} (h : l1.length = n) :
    (l1 ++ l2).take n = l1 := by
  subst h
  exact List.take_left l1 l2

theorem drop_app {α : Type} (l1 l2 : List α) {n : ℕ} (h : l1.length = n) :
    (l1 ++ l2).drop n = l2 := by
  subst h
  exact List.drop_left l1 l2

set_option maxHeartbeats 2000000 in
theorem sres_roundtrip_core (Q : ℕ) [Fact (Nat.Prime Q)] (hQ : Q < 256 ^ 32)
    (d_s q_s d_e q_e d_r q_r : ZMod Q)
    (hqs : q_s = d_s * Gpt Q) (hqe : q_e = d_e * Gpt Q) (hqr : q_r = d_r * Gpt Q)
    (hde : d_e ≠ 0) (hdr : d_r ≠ 0)
    (fuel : ℕ) (rng : ℕ → List ℕ) (nonce : List ℕ) (pt : List Sym) {ct : List Sym}
    (hct : sresEncrypt Q fuel rng d_s q_s d_e q_e q_r nonce pt = some ct) :
    ct.length = pt.length + 3 * POINT_LEN ∧
    sresDecrypt Q d_r q_r q_s nonce ct = some (q_e, pt) := by
  subst hqs hqe hqr
  simp only [Gpt, mul_one] at hct ⊢
  -- name the encryption pipeline states
  have hct2 := hct
  simp only [sresEncrypt] at hct2
  cases hsgn : signDuplexAux Q fuel
      (dupEncrypt
        (dupAbsorb (dupEncrypt (sresInit Q d_s d_r nonce (d_r * d_s)) (pointEnc d_e)).2
          (pointEnc (d_r * d_e))) pt).2 d_s rng 0 with
  | none => rw [hsgn] at hct2; cases hct2
  | some res =>
    obtain ⟨⟨ict, s⟩, st7⟩ := res
    rw [hsgn] at hct2
    have hctv : ct = (dupEncrypt (sresInit Q d_s d_r nonce (d_r * d_s)) (pointEnc d_e)).1 ++
        ((dupEncrypt
            (dupAbsorb (dupEncrypt (sresInit Q d_s d_r nonce (d_r * d_s)) (pointEnc d_e)).2
              (pointEnc (d_r * d_e))) pt).1 ++
          (ict ++ (dupEncrypt st7 (pointEnc (d_r * s))).1)) := by
      cases hct2
      rfl
    obtain ⟨rnd, hatt, hs⟩ := signDuplexAux_some hsgn
    simp only [signAttempt, Gpt, mul_one, Prod.mk.injEq] at hatt
    obtain ⟨⟨hict, hseq⟩, hst7⟩ := hatt
    have hs0 : s ≠ 0 := hs
    -- short names
    set st5 := sresInit Q d_s d_r nonce (d_r * d_s) with hst5
    set ec1 := dupEncrypt st5 (pointEnc d_e) with hec1
    set st6 := dupAbsorb ec1.2 (pointEnc (d_r * d_e)) with hst6
    set ec2 := dupEncrypt st6 pt with hec2
    set k := (squeezeScalarNZ Q (hedgeClone ec2.2 (scalarEnc d_s) rnd)).1 with hk
    have hk0 : k ≠ 0 := squeezeScalarNZ_ne_zero Q _
    -- lengths of the four segments
    have hlen1 : ec1.1.length = POINT_LEN := by
      rw [hec1]
      simp only [dupEncrypt]
      rw [encHead_length, pointEnc_length]
    have hlen2 : ec2.1.length = pt.length := by
      rw [hec2]
      simp only [dupEncrypt]
      rw [encHead_length]
    have hlen3 : ict.length = POINT_LEN := by
      rw [← hict]
      simp only [dupEncrypt]
      rw [encHead_length, pointEnc_length]
    have hlen4 : (dupEncrypt st7 (pointEnc (d_r * s))).1.length = POINT_LEN := by
      simp only [dupEncrypt]
      rw [encHead_length, pointEnc_length]
    have hctlen : ct.length = pt.length + 3 * POINT_LEN := by
      rw [hctv]
      simp only [List.length_append]
      rw [hlen1, hlen2, hlen3, hlen4]
      ring
    refine ⟨hctlen, ?_⟩
    -- now evaluate the decryption
    have hnotshort : ¬ct.length < sresOVERHEAD := by
      rw [hctlen]
      simp [sresOVERHEAD, POINT_LEN]
    rw [sresDecrypt, if_neg hnotshort]
    -- the four splits
    have hq : ct.take POINT_LEN = ec1.1 := by
      rw [hctv]
      exact take_app _ _ hlen1
    have hrest : ct.drop POINT_LEN =
        ec2.1 ++ (ict ++ (dupEncrypt st7 (pointEnc (d_r * s))).1) := by
      rw [hctv]
      exact drop_app _ _ hlen1
    have hrestlen : (ct.drop POINT_LEN).length = pt.length + (POINT_LEN + POINT_LEN) := by
      rw [hrest]
      simp only [List.length_append]
      rw [hlen2, hlen3, hlen4]
    have hbody : (ct.drop POINT_LEN).take
        ((ct.drop POINT_LEN).length - (POINT_LEN + POINT_LEN)) = ec2.1 := by
      rw [hrestlen, Nat.add_sub_cancel, hrest]
      exact take_app _ _ hlen2
    have htail : (ct.drop POINT_LEN).drop
        ((ct.drop POINT_LEN).length - (POINT_LEN + POINT_LEN)) =
        ict ++ (dupEncrypt st7 (pointEnc (d_r * s))).1 := by
      rw [hrestlen, Nat.add_sub_cancel, hrest]
      exact drop_app _ _ hlen2
    have hi : ((ct.drop POINT_LEN).drop
        ((ct.drop POINT_LEN).length - (POINT_LEN + POINT_LEN))).take POINT_LEN = ict := by
      rw [htail]
      exact take_app _ _ hlen3
    have hx : ((ct.drop POINT_LEN).drop
        ((ct.drop POINT_LEN).length - (POINT_LEN + POINT_LEN))).drop POINT_LEN =
        (dupEncrypt st7 (pointEnc (d_r * s))).1 := by
      rw [htail]
      exact drop_app _ _ hlen3
    -- decryption-side states coincide with the encryption side
    have hinit : sresInit Q d_s d_r nonce (d_s * d_r) = st5 := by
      rw [hst5, mul_comm d_s d_r]
    have hdc1 : dupDecrypt st5 ec1.1 = (pointEnc d_e, ec1.2) := by
      rw [hec1]
      exact dupDecrypt_dupEncrypt st5 (pointEnc d_e)
    have hephe : dupAbsorb ec1.2 (pointEnc (d_e * d_r)) = st6 := by
      rw [hst6, mul_comm d_e d_r]
    have hdc2 : dupDecrypt st6 ec2.1 = (pt, ec2.2) := by
      rw [hec2]
      exact dupDecrypt_dupEncrypt st6 pt
    have hdc3 : dupDecrypt ec2.2 ict = (pointEnc k, (dupEncrypt ec2.2 (pointEnc k)).2) := by
      rw [← hict]
      exact dupDecrypt_dupEncrypt ec2.2 (pointEnc k)
    have hdc4 : dupDecrypt st7 (dupEncrypt st7 (pointEnc (d_r * s))).1
        = (pointEnc (d_r * s), (dupEncrypt st7 (pointEnc (d_r * s))).2) :=
      dupDecrypt_dupEncrypt st7 (pointEnc (d_r * s))
    have hfinal : d_r * (k + (squeezeScalarNZ Q (dupEncrypt ec2.2 (pointEnc k)).2).1 * d_s)
        = d_r * s := by
      rw [← hseq]
      ring
    have hx0 : d_r * s ≠ 0 := mul_ne_zero hdr hs0
    simp only [hq, hbody, hi, hx, hinit, hdc1, decodePoint_pointEnc hQ, if_neg hde, hephe,
      hdc2, hdc3, if_neg hk0, hst7, hdc4, if_neg hx0, hfinal, eq_self_iff_true, if_true]

/-- C3: for every sender key pair `(d_S, Q_S)`, ephemeral key pair
`(d_E, Q_E)`, receiver key pair `(d_R, Q_R)`, nonce, and plaintext,
`sres.encrypt` produces a ciphertext of length `|pt| + 3·POINT_LEN`, and
`sres.decrypt` invoked with `(d_R, Q_R)`, `Q_S`, and the same nonce on that
ciphertext returns the ephemeral public key `Q_E` together with the original
plaintext. -/
theorem sres_encrypt_decrypt_roundtrip (Q : ℕ) [Fact (Nat.Prime Q)] (hQ : Q < 256 ^ 32)
    (d_s q_s d_e q_e d_r q_r : ZMod Q)
    (hqs : q_s = d_s * Gpt Q) (hqe : q_e = d_e * Gpt Q) (hqr : q_r = d_r * Gpt Q)
    (hde : d_e ≠ 0) (hdr : d_r ≠ 0)
    (fuel : ℕ) (rng : ℕ → List ℕ) (nonce : List ℕ) (pt : List Sym)
    (h : (sresEncrypt Q fuel rng d_s q_s d_e q_e q_r nonce pt).isSome = true) :
    ((sresEncrypt Q fuel rng d_s q_s d_e q_e q_r nonce pt).get h).length
        = pt.length + 3 * POINT_LEN ∧
    sresDecrypt Q d_r q_r q_s nonce
        ((sresEncrypt Q fuel rng d_s q_s d_e q_e q_r nonce pt).get h) = some (q_e, pt) := by
  obtain ⟨ct, hct⟩ := Option.isSome_iff_exists.mp h
  have hget : (sresEncrypt Q fuel rng d_s q_s d_e q_e q_r nonce pt).get h = ct :=
    Option.get_of_mem h hct
  rw [hget]
  exact sres_roundtrip_core Q hQ d_s q_s d_e q_e d_r q_r hqs hqe hqr hde hdr
    fuel rng nonce pt hct

unseal ncExp ncAux nchunks chunkPow hlenAux encElemAux encElem withNat encLAux encL in
set_option maxRecDepth 100000 in
theorem sres_encrypt_decrypt_roundtrip_witness :
    (sresEncrypt 5 2 (fun i => [i]) 2 2 1 1 3 [1, 2]
        [Sym.raw 10, Sym.raw 20, Sym.raw 30]).isSome = true ∧
    sresDecrypt 5 3 3 2 [1, 2]
        ((sresEncrypt 5 2 (fun i => [i]) 2 2 1 1 3 [1, 2]
            [Sym.raw 10, Sym.raw 20, Sym.raw 30]).get (by decide))
      = some (1, [Sym.raw 10, Sym.raw 20, Sym.raw 30]) := by
  have hqs : (2 : ZMod 5) = 2 * Gpt 5 := by decide
  have hqe : (1 : ZMod 5) = 1 * Gpt 5 := by decide
  have hqr : (3 : ZMod 5) = 3 * Gpt 5 := by decide
  have hde : (1 : ZMod 5) ≠ 0 := by decide
  have hdr : (3 : ZMod 5) ≠ 0 := by decide
  have hQ : (5 : ℕ) < 256 ^ 32 := by norm_num
  have hs : (sresEncrypt 5 2 (fun i => [i]) 2 2 1 1 3 [1, 2]
      [Sym.raw 10, Sym.raw 20, Sym.raw 30]).isSome = true := by decide
  exact ⟨hs, (@sres_encrypt_decrypt_roundtrip 5 ⟨by norm_num⟩ hQ 2 2 1 1 3 3
    hqs hqe hqr hde hdr 2 (fun i => [i]) [1, 2]
    [Sym.raw 10, Sym.raw 20, Sym.raw 30] hs).2⟩

/-- C7: `sres.decrypt` is a total function into an `Option`, returning the
single absent sentinel `none` in every failure case — ciphertext shorter
than `OVERHEAD = 3·POINT_LEN`, a point that fails to decode or is the
identity, or a proof-point mismatch — and it never returns partial
plaintext: the first conjunct settles the short-input case, the second shows
every non-failure outcome carries the full `|ct| - OVERHEAD` bytes of
plaintext and a non-identity ephemeral key, and the third records that the
only values of the function are `none` or a full success, so callers cannot
distinguish which check failed. -/
theorem sres_decrypt_failure_behavior (Q : ℕ) (d_r q_r q_s : ZMod Q) (nonce : List ℕ)
    (ct : List Sym) :
    (ct.length < sresOVERHEAD → sresDecrypt Q d_r q_r q_s nonce ct = none) ∧
    (∀ qe pt, sresDecrypt Q d_r q_r q_s nonce ct = some (qe, pt) →
      qe ≠ 0 ∧ pt.length + sresOVERHEAD = ct.length) ∧
    (sresDecrypt Q d_r q_r q_s nonce ct = none ∨
      ∃ qe pt, sresDecrypt Q d_r q_r q_s nonce ct = some (qe, pt)) := by
  refine ⟨?_, ?_, ?_⟩
  · intro hshort
    rw [sresDecrypt, if_pos hshort]
  · intro qe pt hsome
    by_cases hshort : ct.length < sresOVERHEAD
    · rw [sresDecrypt, if_pos hshort] at hsome
      cases hsome
    · simp only [sresDecrypt, if_neg hshort] at hsome
      split at hsome
      · cases hsome
      · split at hsome
        · cases hsome
        · split at hsome
          · cases hsome
          · split at hsome
            · cases hsome
            · split at hsome
              · cases hsome
              · split at hsome
                · cases hsome
                · split at hsome
                  · simp only [Option.some.injEq, Prod.mk.injEq] at hsome
                    obtain ⟨hq, hp⟩ := hsome
                    subst hq
                    subst hp
                    constructor
                    · assumption
                    · simp only [dupDecrypt, decHead_length, List.length_take,
                        List.length_drop]
                      simp only [sresOVERHEAD, POINT_LEN] at hshort ⊢
                      omega
                  · cases hsome
  · cases hres : sresDecrypt Q d_r q_r q_s nonce ct with
    | none => exact Or.inl rfl
    | some r => exact Or.inr ⟨r.1, r.2, by rw [← hres]⟩

unseal ncExp ncAux nchunks chunkPow hlenAux encElemAux encElem withNat encLAux encL in
set_option maxRecDepth 100000 in
theorem sres_decrypt_failure_behavior_witness :
    sresDecrypt 5 3 3 2 [7] [Sym.raw 1, Sym.raw 2] = none ∧
    (1 : ZMod 5) ≠ 0 ∧
    [Sym.raw 4].length + sresOVERHEAD =
      ((sresEncrypt 5 2 (fun i => [i]) 2 2 1 1 3 [7] [Sym.raw 4]).getD []).length := by
  have hshort : ([Sym.raw 1, Sym.raw 2] : List Sym).length < sresOVERHEAD := by decide
  have hsome : sresDecrypt 5 3 3 2 [7]
      ((sresEncrypt 5 2 (fun i => [i]) 2 2 1 1 3 [7] [Sym.raw 4]).getD [])
      = some (1, [Sym.raw 4]) := by decide
  refine ⟨(sres_decrypt_failure_behavior 5 3 3 2 [7] [Sym.raw 1, Sym.raw 2]).1 hshort, ?_⟩
  exact (sres_decrypt_failure_behavior 5 3 3 2 [7]
    ((sresEncrypt 5 2 (fun i => [i]) 2 2 1 1 3 [7] [Sym.raw 4]).getD [])).2.1
    1 [Sym.raw 4] hsome

/-! ## Schnorr signatures (src/schnorr.rs)

Embedding of `schnorr::sign`, `verify`, `sign_duplex` and `verify_duplex`.
The duplex module the file imports is not among the repository sources, so
the duplex operations are the spec-modelled ones above.  `SIGNATURE_LEN =
POINT_LEN + SCALAR_LEN`.  The signing RNG is a stream of byte draws, one per
retry attempt, and the retry loop carries explicit fuel. -/

/-- Length of a signature in bytes. -/
def SIGNATURE_LEN : ℕ := POINT_LEN + SCALAR_LEN

/-- One iteration of the `sign_duplex` loop: derive the commitment scalar by
hedging, encrypt the commitment point, squeeze the challenge, compute the
proof scalar, and encrypt either the proof scalar or the designated proof
point.  Returns the signature bytes with the committed state, and the proof
scalar (which the loop tests for zero). -/
def schnorrAttempt (Q : ℕ) (st : ℕ) (d : ZMod Q) (q_v : Option (ZMod Q)) (rnd : List ℕ) :
    (List Sym × ℕ) × ZMod Q :=
  let k := (squeezeScalarNZ Q (hedgeClone st (scalarEnc d) rnd)).1
  let ec1 := dupEncrypt st (pointEnc (k * Gpt Q))
  let rs := squeezeScalarNZ Q ec1.2
  let s := d * rs.1 + k
  let second := match q_v with
    | none => scalarEnc s
    | some qv => pointEnc (qv * s)
  let ec2 := dupEncrypt rs.2 second
  ((ec1.1 ++ ec2.1, ec2.2), s)

/-- Embedding of the `sign_duplex` retry loop, with fuel. -/
def schnorrSignDuplex (Q : ℕ) : ℕ → ℕ → ZMod Q → Option (ZMod Q) → (ℕ → List ℕ) → ℕ →
    Option (List Sym × ℕ)
  | 0, _, _, _, _, _ => none
  | fuel + 1, st, d, q_v, rng, attempt =>
    let a := schnorrAttempt Q st d q_v (rng attempt)
    if a.2 = 0 then schnorrSignDuplex Q fuel st d q_v rng (attempt + 1) else some a.1

theorem schnorrSignDuplex_some {Q fuel st attempt : ℕ} {d : ZMod Q} {q_v : Option (ZMod Q)}
    {rng : ℕ → List ℕ} {res : List Sym × ℕ}
    (h : schnorrSignDuplex Q fuel st d q_v rng attempt = some res) :
    ∃ rnd, (schnorrAttempt Q st d q_v rnd).1 = res ∧ (schnorrAttempt Q st d q_v rnd).2 ≠ 0 := by
  induction fuel generalizing attempt with
  | zero => simp [schnorrSignDuplex] at h
  | succ fuel ih =>
    simp only [schnorrSignDuplex] at h
    by_cases hz : (schnorrAttempt Q st d q_v (rng attempt)).2 = 0
    · rw [if_pos hz] at h
      exact ih h
    · rw [if_neg hz] at h
      cases h
      exact ⟨rng attempt, rfl, hz⟩

/-- State of the `veil.schnorr` duplex after absorbing the signer's public
key and the message and transitioning to keyed. -/
def schnorrInit (Q : ℕ) (q : ZMod Q) (msg : List ℕ) : ℕ :=
  dupIntoKeyed (dupAbsorb (dupAbsorb (dupNew "veil.schnorr") (pointEnc q)) (msg.map .raw))

/-- Embedding of `schnorr::sign` (src/schnorr.rs): duplex over the signer's
public key and the message, then `sign_duplex` with no designated
verifier. -/
def schnorrSign (Q fuel : ℕ) (rng : ℕ → List ℕ) (d q : ZMod Q) (msg : List ℕ) :
    Option (List Sym) :=
  match schnorrSignDuplex Q fuel (schnorrInit Q q msg) d none rng 0 with
  | none => none
  | some r => some r.1

/-- Embedding of `schnorr::verify_duplex` (src/schnorr.rs): decrypt and
decode the commitment point, re-derive the challenge, decrypt the second
half, and check either the designated proof point bytes or the Schnorr
equation `I = s·B - r'·Q`.  `true` models `Ok(())`. -/
def schnorrVerifyDuplex (Q : ℕ) (st : ℕ) (q : ZMod Q) (d_v : Option (ZMod Q))
    (sig : List Sym) : Bool :=
  let dc1 := dupDecrypt st (sig.take POINT_LEN)
  match decodePoint Q dc1.1 with
  | none => false
  | some i =>
    let rs := squeezeScalarNZ Q dc1.2
    let dc2 := dupDecrypt rs.2 (sig.drop POINT_LEN)
    match d_v with
    | some dv => decide (dc2.1 = pointEnc ((i + q * rs.1) * dv))
    | none =>
      match decodeScalar Q dc2.1 with
      | none => false
      | some s => decide (i = s * Gpt Q - rs.1 * q)

/-- Embedding of `schnorr::verify` (src/schnorr.rs). -/
def schnorrVerify (Q : ℕ) (q : ZMod Q) (msg : List ℕ) (sig : List Sym) : Bool :=
  schnorrVerifyDuplex Q (schnorrInit Q q msg) q none sig

set_option maxHeartbeats 1000000 in
/-- C6: for every key pair `(d, Q)` with `Q = d·B` and every message,
`schnorr.verify(Q, message, schnorr.sign(rng, (d, Q), message))` succeeds,
for every choice of the signing RNG (whenever the astronomically-rare retry
loop terminates, which the fuel hypothesis expresses). -/
theorem schnorr_sign_verify (Q : ℕ) [Fact (Nat.Prime Q)] (hQ : Q < 256 ^ 32)
    (d q : ZMod Q) (hq : q = d * Gpt Q) (msg : List ℕ) (fuel : ℕ) (rng : ℕ → List ℕ)
    (h : (schnorrSign Q fuel rng d q msg).isSome = true) :
    schnorrVerify Q q msg ((schnorrSign Q fuel rng d q msg).get h) = true := by
  obtain ⟨sig, hsig⟩ := Option.isSome_iff_exists.mp h
  have hget : (schnorrSign Q fuel rng d q msg).get h = sig := Option.get_of_mem h hsig
  rw [hget]
  clear hget h
  subst hq
  simp only [Gpt, mul_one] at hsig ⊢
  have hsig2 := hsig
  simp only [schnorrSign] at hsig2
  cases hsd : schnorrSignDuplex Q fuel (schnorrInit Q d msg) d none rng 0 with
  | none => rw [hsd] at hsig2; cases hsig2
  | some res =>
    rw [hsd] at hsig2
    obtain ⟨rnd, hatt, hs0⟩ := schnorrSignDuplex_some hsd
    simp only [schnorrAttempt, Gpt, mul_one] at hatt hs0
    set st := schnorrInit Q d msg with hst
    set k := (squeezeScalarNZ Q (hedgeClone st (scalarEnc d) rnd)).1 with hk
    set ec1 := dupEncrypt st (pointEnc k) with hec1
    set r := (squeezeScalarNZ Q ec1.2).1 with hr
    set s := d * r + k with hs
    set ec2 := dupEncrypt (squeezeScalarNZ Q ec1.2).2 (scalarEnc s) with hec2
    have hsigv : sig = ec1.1 ++ ec2.1 := by
      cases hsig2
      rw [← hatt]
    have hlen1 : ec1.1.length = POINT_LEN := by
      rw [hec1]
      simp only [dupEncrypt]
      rw [encHead_length, pointEnc_length]
    have htake : sig.take POINT_LEN = ec1.1 := by
      rw [hsigv]
      exact take_app _ _ hlen1
    have hdrop : sig.drop POINT_LEN = ec2.1 := by
      rw [hsigv]
      exact drop_app _ _ hlen1
    have hdc1 : dupDecrypt st ec1.1 = (pointEnc k, ec1.2) := by
      rw [hec1]
      exact dupDecrypt_dupEncrypt st (pointEnc k)
    have hdc2 : dupDecrypt (squeezeScalarNZ Q ec1.2).2 ec2.1 =
        (scalarEnc s, ec2.2) := by
      rw [hec2]
      exact dupDecrypt_dupEncrypt _ (scalarEnc s)
    have heqn : k = s * Gpt Q - r * d := by
      rw [hs, Gpt, mul_one]
      ring
    rw [schnorrVerify, schnorrVerifyDuplex]
    simp only [← hst, htake, hdc1, decodePoint_pointEnc hQ, hdrop, ← hr, hdc2,
      decodeScalar_scalarEnc hQ]
    simp only [decide_eq_true_eq]
    exact heqn

unseal ncExp ncAux nchunks chunkPow hlenAux encElemAux encElem withNat encLAux encL in
set_option maxRecDepth 100000 in
theorem schnorr_sign_verify_witness :
    (schnorrSign 5 3 (fun i => [i]) 2 2 [1, 2, 3]).isSome = true ∧
    schnorrVerify 5 2 [1, 2, 3]
      ((schnorrSign 5 3 (fun i => [i]) 2 2 [1, 2, 3]).getD []) = true := by
  have hq : (2 : ZMod 5) = 2 * Gpt 5 := by decide
  have hQ : (5 : ℕ) < 256 ^ 32 := by norm_num
  have hs : (schnorrSign 5 3 (fun i => [i]) 2 2 [1, 2, 3]).isSome = true := by decide
  have h2 := @schnorr_sign_verify 5 ⟨by norm_num⟩ hQ 2 2 hq [1, 2, 3] 3 (fun i => [i]) hs
  obtain ⟨sig, hsig⟩ := Option.isSome_iff_exists.mp hs
  have hget : (schnorrSign 5 3 (fun i => [i]) 2 2 [1, 2, 3]).get hs = sig :=
    Option.get_of_mem hs hsig
  have hgd : (schnorrSign 5 3 (fun i => [i]) 2 2 [1, 2, 3]).getD [] = sig := by
    rw [hsig]
    rfl
  rw [hget] at h2
  rw [hgd]
  exact ⟨hs, h2⟩

/-! ## Key types (veil/src/keys.rs) and point decoding (src/ecc.rs)

Embedding of `PubKey`, `PrivKey` and their constructors.  The curve library
(crrl jq255e for keys.rs, p256 for ecc.rs) is an external collaborator; its
canonical codec is modelled as the little-endian canonical encoding over the
abstract group, and `decode_reduce` as reduction mod the group order. -/

/-- A public key: the decoded point and its canonical encoded form. -/
structure PubKey (Q : ℕ) where
  q : ZMod Q
  encoded : List ℕ
deriving DecidableEq

/-- A private key: the scalar and the corresponding public key. -/
structure PrivKey (Q : ℕ) where
  d : ZMod Q
  pub_key : PubKey Q
deriving DecidableEq

/-- Canonical scalar decode over raw octets (crrl `Scalar::decode`):
rejects wrong lengths and non-canonical values. -/
def scalarDecodeN (Q : ℕ) (b : List ℕ) : Option (ZMod Q) :=
  if b.length = SCALAR_LEN ∧ fromLE b < Q then some ((fromLE b : ℕ) : ZMod Q) else none

/-- Reducing scalar decode over raw octets (crrl `Scalar::decode_reduce`). -/
def scalarDecodeReduce (Q : ℕ) (b : List ℕ) : ZMod Q := ((fromLE b : ℕ) : ZMod Q)

/-- Embedding of `PubKey::decode` (veil/src/keys.rs): length check,
canonical point decode, and rejection of the neutral element. -/
def pubKeyDecode (Q : ℕ) (b : List ℕ) : Option (PubKey Q) :=
  if b.length = POINT_LEN ∧ fromLE b < Q then
    (if ((fromLE b : ℕ) : ZMod Q) = 0 then none
     else some ⟨((fromLE b : ℕ) : ZMod Q), b⟩)
  else none

/-- Embedding of `PrivKey::from_scalar` (veil/src/keys.rs): derive the
public point by `mulgen` and store its canonical encoding. -/
def privKeyFromScalar (Q : ℕ) (d : ZMod Q) : PrivKey Q :=
  ⟨d, ⟨d * Gpt Q, toLE POINT_LEN (ZMod.val (d * Gpt Q))⟩⟩

/-- Embedding of `PrivKey::decode` (veil/src/keys.rs). -/
def privKeyDecode (Q : ℕ) (b : List ℕ) : Option (PrivKey Q) :=
  match scalarDecodeN Q b with
  | none => none
  | some d => if d = 0 then none else some (privKeyFromScalar Q d)

/-- Embedding of `PrivKey::decode_reduce` (veil/src/keys.rs). -/
def privKeyDecodeReduce (Q : ℕ) (b : List ℕ) : Option (PrivKey Q) :=
  if scalarDecodeReduce Q b = 0 then none
  else some (privKeyFromScalar Q (scalarDecodeReduce Q b))

/-- Embedding of `PrivKey::random` (veil/src/keys.rs): reject-zero loop over
fresh 32-byte draws, with fuel. -/
def privKeyRandom (Q : ℕ) : ℕ → (ℕ → List ℕ) → ℕ → Option (PrivKey Q)
  | 0, _, _ => none
  | fuel + 1, rng, i =>
    match privKeyDecodeReduce Q (rng i) with
    | some k => some k
    | none => privKeyRandom Q fuel rng (i + 1)

/-- Embedding of `squeeze_private_key` (veil/src/duplex.rs): squeeze 32
bytes and decode-reduce them; the `expect` panic on a zero scalar is the
absent value. -/
def squeezePrivKey (Q st : ℕ) : Option (PrivKey Q) :=
  privKeyDecodeReduce Q (dupDigest st :: List.replicate (SCALAR_LEN - 1) 0)

/-- Embedding of `decode_point` (src/ecc.rs): decode a byte slice as a
point, rejecting invalid encodings and the identity.  The sec1 codec is an
external collaborator, modelled as the canonical little-endian codec. -/
def eccDecodePoint (Q : ℕ) (b : List ℕ) : Option (ZMod Q) :=
  if b.length = 33 ∧ fromLE b < Q then
    (if ((fromLE b : ℕ) : ZMod Q) = 0 then none else some ((fromLE b : ℕ) : ZMod Q))
  else none

/-- The private-key invariant: non-zero scalar, public point derived as
`d·B`, stored canonical encoding, and non-identity public point. -/
def PrivKeyValid {Q : ℕ} (k : PrivKey Q) : Prop :=
  k.d ≠ 0 ∧ k.pub_key.q = k.d * Gpt Q ∧
    k.pub_key.encoded = toLE POINT_LEN (ZMod.val (k.d * Gpt Q)) ∧ k.pub_key.q ≠ 0

theorem privKeyFromScalar_valid {Q : ℕ} [Fact (Nat.Prime Q)] {d : ZMod Q} (hd : d ≠ 0) :
    PrivKeyValid (privKeyFromScalar Q d) := by
  refine ⟨hd, rfl, rfl, ?_⟩
  simp only [privKeyFromScalar, Gpt, mul_one]
  exact hd

theorem privKeyDecodeReduce_valid {Q : ℕ} [Fact (Nat.Prime Q)] {b : List ℕ} {k : PrivKey Q}
    (h : privKeyDecodeReduce Q b = some k) : PrivKeyValid k := by
  unfold privKeyDecodeReduce at h
  split at h
  · cases h
  · cases h
    rename_i hnz
    exact privKeyFromScalar_valid hnz

/-- C9: every `PrivKey` produced by any constructor — `random`, `decode`,
`decode_reduce`, `squeeze_private_key` — has a non-zero scalar `d` and a
`pub_key` whose point equals `d·B` with its stored canonical encoding and is
not the identity; and every point accepted by public-key or point decoding
(`PubKey::decode`, `ecc::decode_point`) is non-identity. -/
theorem privkey_constructors_invariant (Q : ℕ) [Fact (Nat.Prime Q)]
    (b : List ℕ) (fuel st : ℕ) (rng : ℕ → List ℕ) :
    (∀ k, privKeyDecode Q b = some k → PrivKeyValid k) ∧
    (∀ k, privKeyDecodeReduce Q b = some k → PrivKeyValid k) ∧
    (∀ k, privKeyRandom Q fuel rng 0 = some k → PrivKeyValid k) ∧
    (∀ k, squeezePrivKey Q st = some k → PrivKeyValid k) ∧
    (∀ pk, pubKeyDecode Q b = some pk → pk.q ≠ 0) ∧
    (∀ p, eccDecodePoint Q b = some p → p ≠ 0) := by
  refine ⟨?_, ?_, ?_, ?_, ?_, ?_⟩
  · intro k h
    unfold privKeyDecode at h
    split at h
    · cases h
    · split at h
      · cases h
      · cases h
        rename_i hnz
        exact privKeyFromScalar_valid hnz
  · intro k h
    exact privKeyDecodeReduce_valid h
  · intro k h
    induction fuel generalizing k with
    | zero => cases h
    | succ fuel ih =>
      have haux : ∀ (i : ℕ) (k2 : PrivKey Q), privKeyRandom Q (fuel + 1) rng i = some k2 →
          PrivKeyValid k2 := by
        clear h ih
        induction fuel with
        | zero =>
          intro i k2 h2
          simp only [privKeyRandom] at h2
          cases hdr : privKeyDecodeReduce Q (rng i) with
          | none => rw [hdr] at h2; cases h2
          | some kk =>
            rw [hdr] at h2
            cases h2
            exact privKeyDecodeReduce_valid hdr
        | succ fuel ih2 =>
          intro i k2 h2
          simp only [privKeyRandom] at h2
          cases hdr : privKeyDecodeReduce Q (rng i) with
          | none =>
            rw [hdr] at h2
            exact ih2 (i + 1) k2 h2
          | some kk =>
            rw [hdr] at h2
            cases h2
            exact privKeyDecodeReduce_valid hdr
      exact haux 0 k h
  · intro k h
    exact privKeyDecodeReduce_valid h
  · intro pk h
    unfold pubKeyDecode at h
    split at h
    · split at h
      · cases h
      · cases h
        rename_i hnz
        exact hnz
    · cases h
  · intro p h
    unfold eccDecodePoint at h
    split at h
    · split at h
      · cases h
      · cases h
        rename_i hnz
        exact hnz
    · cases h

unseal ncExp ncAux nchunks chunkPow hlenAux encElemAux encElem withNat encLAux encL in
set_option maxRecDepth 100000 in
theorem privkey_constructors_invariant_witness :
    (∀ k, privKeyDecode 5 (2 :: List.replicate 31 0) = some k → PrivKeyValid k) ∧
    (privKeyDecode 5 (2 :: List.replicate 31 0)).isSome = true := by
  have hsome : (privKeyDecode 5 (2 :: List.replicate 31 0)).isSome = true := by decide
  exact ⟨(@privkey_constructors_invariant 5 ⟨by norm_num⟩
    (2 :: List.replicate 31 0) 1 0 (fun _ => [])).1, hsome⟩

/-! ## `hedge` (veil/src/duplex.rs, C10)

The Rust `hedge` takes the duplex by shared reference (`&self`), clones it,
absorbs the secret key's scalar encoding and 64 random bytes into the clone,
and applies `f` to the clone only.  The embedding threads the state
explicitly: the returned state component is the caller's, translating the
`&self` receiver, and the result is `f` of the absorbed clone. -/

/-- Embedding of `Absorb::hedge` (veil/src/duplex.rs). -/
def veilHedge {Q : ℕ} {R : Type} (st : ℕ) (rnd : List ℕ) (secret : PrivKey Q)
    (f : ℕ → R × ℕ) : R × ℕ :=
  let clone := dupAbsorb (dupAbsorb st (scalarEnc secret.d)) (rnd.map .raw)
  ((f clone).1, st)

/-- C10: for every duplex state, secret, RNG draw, and derivation function
`f`, `hedge` leaves the caller's duplex state unchanged — the secret and the
random bytes are absorbed only into a clone, only the clone is passed to
`f`, and any later operation on the caller's duplex behaves as if `hedge`
had never run. -/
theorem hedge_frame (Q : ℕ) (R : Type) (st : ℕ) (rnd : List ℕ) (secret : PrivKey Q)
    (f : ℕ → R × ℕ) :
    (veilHedge st rnd secret f).2 = st ∧
    (veilHedge st rnd secret f).1 =
      (f (dupAbsorb (dupAbsorb st (scalarEnc secret.d)) (rnd.map .raw))).1 ∧
    (∀ data, dupAbsorb (veilHedge st rnd secret f).2 data = dupAbsorb st data) ∧
    (∀ n, dupSqueeze (veilHedge st rnd secret f).2 n = dupSqueeze st n) :=
  ⟨rfl, rfl, fun _ => rfl, fun _ => rfl⟩

/-! ## `pbenc` — passphrase-based encryption (src/pbenc.rs)

Embedding of `pbenc::encrypt`, `pbenc::decrypt` and the balloon-hashing
`init`.  The STROBE `Protocol` the file uses is not among the repository
sources, so its operations (`key`, `ad`, `prf_fill`, `encrypt`, `decrypt`,
`mac`, `verify_mac`) are spec-modelled over the ideal transcript, each with
its label.  `decrypt` returns an explicit three-valued result so that the
panic paths of `init` (the `NonZero` unwrap and the buffer accesses when
`space = 0`) are distinguishable from the absent value. -/

/-- Length of a `pbenc` MAC in bytes. -/
def MAC_LEN : ℕ := 16

/-- Length of a `pbenc` salt in bytes. -/
def SALT_LEN : ℕ := 16

/-- The balloon mix-in degree `DELTA`. -/
def DELTA : ℕ := 3

/-- The balloon block size `N` in bytes. -/
def NBLOCK : ℕ := 64

/-- Bytes `pbenc::encrypt` adds to a plaintext:
`U32_LEN + U32_LEN + SALT_LEN + MAC_LEN`. -/
def pbencOVERHEAD : ℕ := 4 + 4 + SALT_LEN + MAC_LEN

/-- Numeric value of a symbolic byte as a parser sees it; non-raw bytes read
as zero (they only arise on junk paths). -/
def symVal : Sym → ℕ
  | .raw n => n
  | _ => 0

/-- Modelled from the spec: Unicode NFKC normalization of one code point,
represented on the subset exercised here — code points that are NFKC fixed
points map to themselves, and U+FB01 (the ﬁ ligature) decomposes to
`f`,`i`. -/
def nfkcChar (c : ℕ) : List ℕ := if c = 0xFB01 then [0x66, 0x69] else [c]

/-- Modelled from the spec: NFKC normalization of a code-point string. -/
def nfkc : List ℕ → List ℕ
  | [] => []
  | c :: t => nfkcChar c ++ nfkc t

/-- UTF-8 encoding of one code point. -/
def utf8Char (c : ℕ) : List ℕ :=
  if c < 0x80 then [c]
  else if c < 0x800 then [0xC0 + c / 64, 0x80 + c % 64]
  else if c < 0x10000 then [0xE0 + c / 4096, 0x80 + c / 64 % 64, 0x80 + c % 64]
  else [0xF0 + c / 262144, 0x80 + c / 4096 % 64, 0x80 + c / 64 % 64, 0x80 + c % 64]

/-- UTF-8 encoding of a code-point string. -/
def utf8 : List ℕ → List ℕ
  | [] => []
  | c :: t => utf8Char c ++ utf8 t

/-- Modelled from the spec: STROBE `KEY` operation with a label. -/
def protKey (st : ℕ) (label : String) (data : List ℕ) : ℕ :=
  mixOp st [11, encStr label, encL data]

/-- Modelled from the spec: STROBE `AD` operation with a label. -/
def protAd (st : ℕ) (label : String) (data : List ℕ) : ℕ :=
  mixOp st [12, encStr label, encL data]

/-- Modelled from the spec: STROBE `PRF` squeeze of `n` bytes; the first
byte carries a state digest word, and the state advances. -/
def protPrf (st : ℕ) (label : String) (n : ℕ) : List ℕ × ℕ :=
  (dupDigest st :: List.replicate (n - 1) 0, mixOp st [13, encStr label, n])

/-- Keystream word for the `pbenc` AEAD channel. -/
def protKS (st : ℕ) : ℕ := mixOp st [15]

/-- Modelled from the spec: STROBE `SEND_ENC` (encrypt) with a label. -/
def protEncrypt (st : ℕ) (label : String) (pt : List Sym) : List Sym × ℕ :=
  (encHead (protKS st) pt, mixOp st [14, encStr label, encData pt])

/-- Modelled from the spec: STROBE `RECV_ENC` (decrypt) with a label. -/
def protDecrypt (st : ℕ) (label : String) (ct : List Sym) : List Sym × ℕ :=
  let pt := decHead (protKS st) ct
  (pt, mixOp st [14, encStr label, encData pt])

/-- Modelled from the spec: STROBE `SEND_MAC` of 16 bytes; the first byte
carries the injective state word. -/
def protMac (st : ℕ) (label : String) : List Sym × ℕ :=
  (Sym.raw (mixOp st [16]) :: List.replicate (MAC_LEN - 1) (.raw 0),
    mixOp st [17, encStr label])

/-- Modelled from the spec: STROBE `RECV_MAC` — recompute the MAC and
compare in constant time; absent on mismatch. -/
def protVerifyMac (st : ℕ) (label : String) (mac : List Sym) : Option Unit × ℕ :=
  let m := protMac st label
  (if mac = m.1 then some () else none, m.2)

/-- Embedding of the `hash_counter!` macro (src/pbenc.rs): absorb the
counter, the left and right inputs, then squeeze an `N`-byte block.
Returns the output block, the new protocol state, and the new counter. -/
def hashCounter (st ctr : ℕ) (left right : List ℕ) : List ℕ × ℕ × ℕ :=
  let st1 := protAd st "counter" (toLE 8 ctr)
  let st2 := protAd st1 "left" left
  let st3 := protAd st2 "right" right
  let pr := protPrf st3 "out" NBLOCK
  (pr.1, pr.2, ctr + 1)

/-- Balloon-hashing working state: protocol state, shared counter, buffer. -/
structure BState where
  st : ℕ
  ctr : ℕ
  buf : List (List ℕ)
deriving Repr

/-- Step 1 (expand), one block: `buf[m] ← hash_counter(buf[m-1], [])`. -/
def expandStep (s : BState) : ℕ → BState := fun _ =>
  let h := hashCounter s.st s.ctr (s.buf.getD (s.buf.length - 1) []) []
  ⟨h.2.1, h.2.2, s.buf ++ [h.1]⟩

/-- Step 2b, one mix-in: hash the salt with the padded index seed, reduce
the result mod `space`, and hash the selected block into `buf[m]`. -/
def mixIn (space : ℕ) (salt : List ℕ) (t m : ℕ) (s : BState) (i : ℕ) : BState :=
  let seed := toLE 8 t ++ toLE 8 m ++ toLE 8 i ++ List.replicate (NBLOCK - 24) 0
  let h2 := hashCounter s.st s.ctr salt seed
  let idx := fromLE h2.1 % space
  let h3 := hashCounter h2.2.1 h2.2.2 (s.buf.getD idx []) []
  ⟨h3.2.1, h3.2.2, s.buf.set m h3.1⟩

/-- Step 2, one block: `buf[m] ← hash_counter(buf[(m-1) mod space], buf[m])`
followed by `DELTA` pseudo-random mix-ins. -/
def mixStep (space : ℕ) (salt : List ℕ) (t : ℕ) (s : BState) (m : ℕ) : BState :=
  let prev := (m + space - 1) % space
  let h := hashCounter s.st s.ctr (s.buf.getD prev []) (s.buf.getD m [])
  let s1 : BState := ⟨h.2.1, h.2.2, s.buf.set m h.1⟩
  (List.range DELTA).foldl (mixIn space salt t m) s1

/-- Step 2, one time pass over all blocks. -/
def mixPass (space : ℕ) (salt : List ℕ) (s : BState) (t : ℕ) : BState :=
  (List.range space).foldl (mixStep space salt t) s

/-- The balloon computation of `init` (src/pbenc.rs), assuming
`space ≥ 1`: expand, then `time` mix passes. -/
def balloon (pp salt : List ℕ) (time space : ℕ) (st : ℕ) : BState :=
  let h0 := hashCounter st 0 pp salt
  let s0 : BState := ⟨h0.2.1, h0.2.2, [h0.1]⟩
  let s1 := (List.range (space - 1)).foldl expandStep s0
  (List.range time).foldl (mixPass space salt) s1

/-- Protocol state of `init` after the keying and parameter absorbs,
before the balloon computation. -/
def pbencPre (pass salt : List ℕ) (time space : ℕ) : ℕ :=
  protAd
    (protAd
      (protAd
        (protAd
          (protAd (protKey (dupNew "veil.pbenc") "passphrase" (utf8 (nfkc pass))) "salt" salt)
          "time" (toLE 4 time))
        "space" (toLE 4 space))
      "block-size" (toLE 4 NBLOCK))
    "delta" (toLE 4 DELTA)

/-- Embedding of `init` (src/pbenc.rs).  The absent value models the panic
of the `NonZero` construction (and the `buf[0]`/`buf[space-1]` accesses)
when `space = 0`. -/
def pbencInit (pass salt : List ℕ) (time space : ℕ) : Option ℕ :=
  if space = 0 then none
  else
    let b := balloon (utf8 (nfkc pass)) salt time space (pbencPre pass salt time space)
    some (protKey b.st "extract" (b.buf.getD (space - 1) []))

/-- Embedding of `pbenc::encrypt` (src/pbenc.rs); the salt is the random
draw, taken as a parameter. -/
def pbencEncrypt (pass salt : List ℕ) (time space : ℕ) (pt : List Sym) :
    Option (List Sym) :=
  match pbencInit pass salt time space with
  | none => none
  | some st =>
    let ec := protEncrypt st "ciphertext" pt
    let mac := protMac ec.2 "mac"
    some ((toLE 4 time).map .raw ++ ((toLE 4 space).map .raw ++
      (salt.map .raw ++ (ec.1 ++ mac.1))))

/-- Result of `pbenc::decrypt`: a panic, the absent value, or a plaintext. -/
inductive PbencResult where
  | panicked
  | absent
  | ok (pt : List Sym)
deriving DecidableEq, Repr

/-- Embedding of `pbenc::decrypt` (src/pbenc.rs). -/
def pbencDecrypt (pass : List ℕ) (ct : List Sym) : PbencResult :=
  if ct.length < pbencOVERHEAD then .absent
  else
    let time := fromLE ((ct.take 4).map symVal)
    let r1 := ct.drop 4
    let space := fromLE ((r1.take 4).map symVal)
    let r2 := r1.drop 4
    let salt := (r2.take SALT_LEN).map symVal
    let body := r2.drop SALT_LEN
    match pbencInit pass salt time space with
    | none => .panicked
    | some st =>
      let ctxt := body.take (body.length - MAC_LEN)
      let mac := body.drop (body.length - MAC_LEN)
      let dc := protDecrypt st "ciphertext" ctxt
      match (protVerifyMac dc.2 "mac" mac).1 with
      | none => .absent
      | some _ => .ok dc.1

unseal ncExp ncAux nchunks chunkPow hlenAux encElemAux encElem withNat encLAux encL in
set_option maxRecDepth 400000 in
/-- C5: `pbenc.decrypt` is not total over byte strings: on an input of
length at least `OVERHEAD` whose space field (bytes 4..8, little-endian)
decodes to zero, `init` panics (the `NonZero` construction and the
`buf[space - 1]` access fail) instead of returning the absent value. -/
theorem pbenc_decrypt_zero_space_panics :
    pbencOVERHEAD ≤ (List.replicate 40 (Sym.raw 0) : List Sym).length ∧
    fromLE ((((List.replicate 40 (Sym.raw 0) : List Sym).drop 4).take 4).map symVal) = 0 ∧
    pbencDecrypt [1] (List.replicate 40 (Sym.raw 0)) = PbencResult.panicked := by
  refine ⟨by decide, by decide, by decide⟩

theorem mixOp_st_ne {st st' : ℕ} {a a' : List ℕ} (h : st ≠ st') :
    mixOp st a ≠ mixOp st' a' :=
  fun he => h (mixOp_inj he).1

theorem protKey_st_ne {st st' : ℕ} {l l' : String} {d d' : List ℕ} (h : st ≠ st') :
    protKey st l d ≠ protKey st' l' d' := mixOp_st_ne h

theorem protAd_st_ne {st st' : ℕ} {l l' : String} {d d' : List ℕ} (h : st ≠ st') :
    protAd st l d ≠ protAd st' l' d' := mixOp_st_ne h

theorem protKey_data_ne {st : ℕ} {l : String} {d d' : List ℕ} (h : d ≠ d') :
    protKey st l d ≠ protKey st l d' := by
  intro he
  have h2 := (mixOp_inj he).2
  simp only [List.cons.injEq, and_true, true_and] at h2
  exact h (encL_inj h2)

theorem hashCounter_st_ne {st st' ctr ctr' : ℕ} {l l' r r' : List ℕ} (h : st ≠ st') :
    (hashCounter st ctr l r).2.1 ≠ (hashCounter st' ctr' l' r').2.1 := by
  simp only [hashCounter, protAd, protPrf]
  exact mixOp_st_ne (mixOp_st_ne (mixOp_st_ne (mixOp_st_ne h)))

set_option maxHeartbeats 2000000 in
theorem foldl_st_ne {β : Type} {f : BState → β → BState}
    (hf : ∀ s s' b, s.st ≠ s'.st → (f s b).st ≠ (f s' b).st) :
    ∀ (l : List β) (s s' : BState), s.st ≠ s'.st → (l.foldl f s).st ≠ (l.foldl f s').st := by
  intro l
  induction l with
  | nil => intro s s' h; exact h
  | cons b t ih =>
    intro s s' h
    exact ih (f s b) (f s' b) (hf s s' b h)

theorem expandStep_st_ne {s s' : BState} {b b' : ℕ} (h : s.st ≠ s'.st) :
    (expandStep s b).st ≠ (expandStep s' b').st := hashCounter_st_ne h

set_option maxHeartbeats 2000000 in
theorem mixIn_st_ne {space : ℕ} {salt : List ℕ} {t m : ℕ} {s s' : BState} {i i' : ℕ}
    (h : s.st ≠ s'.st) :
    (mixIn space salt t m s i).st ≠ (mixIn space salt t m s' i').st := by
  simp only [mixIn]
  exact hashCounter_st_ne (hashCounter_st_ne h)

set_option maxHeartbeats 4000000 in
theorem mixStep_st_ne {space : ℕ} {salt : List ℕ} {t : ℕ} {s s' : BState} {m : ℕ}
    (h : s.st ≠ s'.st) :
    (mixStep space salt t s m).st ≠ (mixStep space salt t s' m).st := by
  simp only [mixStep]
  exact foldl_st_ne (fun a a' b hb => mixIn_st_ne hb) _ _ _ (hashCounter_st_ne h)

set_option maxHeartbeats 4000000 in
theorem mixPass_st_ne {space : ℕ} {salt : List ℕ} {s s' : BState} {t : ℕ}
    (h : s.st ≠ s'.st) :
    (mixPass space salt s t).st ≠ (mixPass space salt s' t).st := by
  have hstep : ∀ (a a' : BState) (b : ℕ), a.st ≠ a'.st →
      (mixStep space salt t a b).st ≠ (mixStep space salt t a' b).st :=
    fun _ _ _ hb => mixStep_st_ne hb
  exact foldl_st_ne hstep (List.range space) s s' h

set_option maxHeartbeats 4000000 in
theorem balloon_st_ne {pp pp' salt : List ℕ} {time space : ℕ} {st st' : ℕ} (h : st ≠ st') :
    (balloon pp salt time space st).st ≠ (balloon pp' salt time space st').st := by
  have hstep1 : ∀ (a a' : BState) (b : ℕ), a.st ≠ a'.st →
      (expandStep a b).st ≠ (expandStep a' b).st :=
    fun _ _ _ hb => expandStep_st_ne hb
  have hstep2 : ∀ (a a' : BState) (b : ℕ), a.st ≠ a'.st →
      (mixPass space salt a b).st ≠ (mixPass space salt a' b).st :=
    fun _ _ _ hb => mixPass_st_ne hb
  simp only [balloon]
  exact foldl_st_ne hstep2 (List.range time) _ _
    (foldl_st_ne hstep1 (List.range (space - 1)) _ _ (hashCounter_st_ne h))

theorem pbencPre_ne {p p' salt : List ℕ} {time space : ℕ}
    (h : utf8 (nfkc p) ≠ utf8 (nfkc p')) :
    pbencPre p salt time space ≠ pbencPre p' salt time space := by
  simp only [pbencPre]
  exact protAd_st_ne (protAd_st_ne (protAd_st_ne (protAd_st_ne (protAd_st_ne
    (protKey_data_ne h)))))

theorem pbencInit_st_ne {p p' salt : List ℕ} {time space : ℕ} {st st' : ℕ}
    (hsp : space ≠ 0) (h : utf8 (nfkc p) ≠ utf8 (nfkc p'))
    (h1 : pbencInit p salt time space = some st)
    (h2 : pbencInit p' salt time space = some st') : st ≠ st' := by
  rw [pbencInit, if_neg hsp] at h1 h2
  cases h1
  cases h2
  exact protKey_st_ne (balloon_st_ne (pbencPre_ne h))

theorem map_symVal_raw (l : List ℕ) : (l.map Sym.raw).map symVal = l := by
  induction l with
  | nil => rfl
  | cons a t ih => simp [symVal, ih]

theorem pbencDecrypt_encBody {p' salt : List ℕ} {time space : ℕ} (st0 st1 : ℕ) (pt : List Sym)
    (htime : time < 256 ^ 4) (hspace : space < 256 ^ 4)
    (hsalt : salt.length = SALT_LEN)
    (hinit : pbencInit p' salt time space = some st1)
    (hne : st1 ≠ st0) :
    pbencDecrypt p' ((toLE 4 time).map .raw ++ ((toLE 4 space).map .raw ++
      (salt.map .raw ++ ((protEncrypt st0 "ciphertext" pt).1 ++
        (protMac (protEncrypt st0 "ciphertext" pt).2 "mac").1)))) = PbencResult.absent := by
  have hA : ((toLE 4 time).map Sym.raw).length = 4 := by
    rw [List.length_map, toLE_length]
  have hB : ((toLE 4 space).map Sym.raw).length = 4 := by
    rw [List.length_map, toLE_length]
  have hC : (salt.map Sym.raw).length = SALT_LEN := by
    rw [List.length_map, hsalt]
  have hD : (protEncrypt st0 "ciphertext" pt).1.length = pt.length := by
    simp [protEncrypt, encHead_length]
  have hE : (protMac (protEncrypt st0 "ciphertext" pt).2 "mac").1.length = MAC_LEN := by
    simp [protMac, MAC_LEN]
  have hlen : ¬ (((toLE 4 time).map Sym.raw ++ ((toLE 4 space).map Sym.raw ++
      (salt.map Sym.raw ++ ((protEncrypt st0 "ciphertext" pt).1 ++
        (protMac (protEncrypt st0 "ciphertext" pt).2 "mac").1)))).length < pbencOVERHEAD) := by
    simp only [List.length_append, hA, hB, hC, hD, hE, pbencOVERHEAD, SALT_LEN, MAC_LEN]
    omega
  have hbody : ((protEncrypt st0 "ciphertext" pt).1 ++
      (protMac (protEncrypt st0 "ciphertext" pt).2 "mac").1).length - MAC_LEN =
      (protEncrypt st0 "ciphertext" pt).1.length := by
    rw [List.length_append, hD, hE]
    omega
  simp only [pbencDecrypt]
  rw [if_neg hlen, take_app _ _ hA, drop_app _ _ hA, take_app _ _ hB, drop_app _ _ hB,
    take_app _ _ hC, drop_app _ _ hC, map_symVal_raw, map_symVal_raw, map_symVal_raw,
    fromLE_toLE htime, fromLE_toLE hspace, hbody,
    take_app _ _ rfl, drop_app _ _ rfl, hinit]
  have hvm : (protVerifyMac (protDecrypt st1 "ciphertext"
      (protEncrypt st0 "ciphertext" pt).1).2 "mac"
      (protMac (protEncrypt st0 "ciphertext" pt).2 "mac").1).1 = none := by
    have hne2 : mixOp (mixOp st0 [14, encStr "ciphertext", encData pt]) [16] ≠
        mixOp (mixOp st1 [14, encStr "ciphertext",
          encData (decHead (protKS st1) (encHead (protKS st0) pt))]) [16] :=
      mixOp_st_ne (mixOp_st_ne (Ne.symm hne))
    simp only [protVerifyMac, protMac, protDecrypt, protEncrypt, List.cons.injEq,
      Sym.raw.injEq, and_true]
    rw [if_neg hne2]
  simp only [hvm]

unseal ncExp ncAux nchunks chunkPow hlenAux encElemAux encElem withNat encLAux encL in
set_option maxRecDepth 400000 in
/-- C4 (counterexample): the passphrases `[U+FB01]` (the `ﬁ` ligature) and
`"fi"` are distinct, yet `pbenc.decrypt` under the second recovers the
plaintext encrypted under the first, because `init` normalizes passphrases
with NFKC before absorbing them; so distinctness of passphrases alone does
not make decryption return the absent value. -/
theorem pbenc_distinct_passphrase_counterexample :
    ([0xFB01] : List ℕ) ≠ [0x66, 0x69] ∧
    pbencDecrypt [0x66, 0x69]
      ((pbencEncrypt [0xFB01] (List.range SALT_LEN) 1 1 [Sym.raw 9]).getD [])
      = PbencResult.ok [Sym.raw 9] := by
  exact ⟨by decide, by decide⟩

/-- C4 (amended): for every plaintext, every `time`, every non-zero `space`
(both below `2^32` as in the `u32` parameters), every `SALT_LEN`-byte salt,
and every pair of passphrases whose NFKC-normalized UTF-8 encodings differ,
`pbenc.decrypt` under the second passphrase of a ciphertext produced by
`pbenc.encrypt` under the first returns the absent value. -/
theorem pbenc_decrypt_wrong_passphrase {p p' salt : List ℕ} {time space : ℕ}
    {pt ct : List Sym}
    (htime : time < 2 ^ 32) (hspace : space < 2 ^ 32) (hsp : space ≠ 0)
    (hsalt : salt.length = SALT_LEN)
    (hne : utf8 (nfkc p') ≠ utf8 (nfkc p))
    (hct : pbencEncrypt p salt time space pt = some ct) :
    pbencDecrypt p' ct = PbencResult.absent := by
  have h256 : (2 : ℕ) ^ 32 = 256 ^ 4 := by norm_num
  have hinit : pbencInit p salt time space =
      some (protKey (balloon (utf8 (nfkc p)) salt time space (pbencPre p salt time space)).st
        "extract"
        ((balloon (utf8 (nfkc p)) salt time space (pbencPre p salt time space)).buf.getD
          (space - 1) [])) := by
    simp only [pbencInit, if_neg hsp]
  have hinit' : pbencInit p' salt time space =
      some (protKey (balloon (utf8 (nfkc p')) salt time space (pbencPre p' salt time space)).st
        "extract"
        ((balloon (utf8 (nfkc p')) salt time space (pbencPre p' salt time space)).buf.getD
          (space - 1) [])) := by
    simp only [pbencInit, if_neg hsp]
  simp only [pbencEncrypt, hinit] at hct
  rw [Option.some.injEq] at hct
  subst hct
  exact pbencDecrypt_encBody _ _ pt (h256 ▸ htime) (h256 ▸ hspace) hsalt hinit'
    (pbencInit_st_ne hsp hne hinit' hinit)

/-! ### C8 — the balloon recurrence as the spec states it

The claim describes `init`'s buffer computation as a recurrence in terms of
`hash_counter`.  The definitions below transcribe that recurrence from the
claim's words — written with an explicit counted loop rather than the folds
of the source embedding — parameterized by the idx-seed function, since the
seed is exactly where claim and code part ways. -/

/-- Counted loop of the claim text: apply `f` at `k, k+1, …, k+n-1`. -/
def specFor (f : BState → ℕ → BState) : ℕ → ℕ → BState → BState
  | _, 0, s => s
  | k, n + 1, s => specFor f (k + 1) n (f s k)

/-- The idx seed exactly as the claim states it: `le64(t) ‖ le64(m) ‖ le64(i)`. -/
def specSeed24 (t m i : ℕ) : List ℕ := toLE 8 t ++ toLE 8 m ++ toLE 8 i

/-- The idx seed as the code computes it: `le64(t) ‖ le64(m) ‖ le64(i)`
zero-padded to a full `N`-byte block. -/
def specSeed (t m i : ℕ) : List ℕ :=
  toLE 8 t ++ toLE 8 m ++ toLE 8 i ++ List.replicate (NBLOCK - 24) 0

/-- Claim text, one mix-in: hash the salt with the idx seed, reduce mod
`space` to `idx`, and replace `block[m]` by `hash_counter(block[idx], empty)`. -/
def specMixIn (seedf : ℕ → ℕ → ℕ → List ℕ) (space : ℕ) (salt : List ℕ)
    (t m : ℕ) (s : BState) (i : ℕ) : BState :=
  let h2 := hashCounter s.st s.ctr salt (seedf t m i)
  let idx := fromLE h2.1 % space
  let h3 := hashCounter h2.2.1 h2.2.2 (s.buf.getD idx []) []
  ⟨h3.2.1, h3.2.2, s.buf.set m h3.1⟩

/-- Claim text, one block of the mix pass: replace `block[m]` by
`hash_counter(block[(m-1) mod space], block[m])`, then do `delta` mix-ins
for `i` in `0..delta`. -/
def specMixStep (seedf : ℕ → ℕ → ℕ → List ℕ) (space : ℕ) (salt : List ℕ)
    (t : ℕ) (s : BState) (m : ℕ) : BState :=
  let prev := (m + space - 1) % space
  let h := hashCounter s.st s.ctr (s.buf.getD prev []) (s.buf.getD m [])
  let s1 : BState := ⟨h.2.1, h.2.2, s.buf.set m h.1⟩
  specFor (specMixIn seedf space salt t m) 0 DELTA s1

/-- Claim text: the expansion step and the mix passes for `t` in `0..time`,
each over `m` in `0..space`. -/
def specBalloon (seedf : ℕ → ℕ → ℕ → List ℕ) (pp salt : List ℕ)
    (time space : ℕ) (st : ℕ) : BState :=
  let h0 := hashCounter st 0 pp salt
  let s0 : BState := ⟨h0.2.1, h0.2.2, [h0.1]⟩
  let s1 := specFor (fun s _ => expandStep s 0) 1 (space - 1) s0
  specFor (fun s t => specFor (specMixStep seedf space salt t) 0 space s) 0 time s1

/-- Claim text: `init` keyed and parameterized as in the code, the buffer
computed by the claimed recurrence, and the duplex finally rekeyed with
`block[space-1]`. -/
def pbencInitSpec (seedf : ℕ → ℕ → ℕ → List ℕ) (pass salt : List ℕ)
    (time space : ℕ) : Option ℕ :=
  if space = 0 then none
  else
    let b := specBalloon seedf (utf8 (nfkc pass)) salt time space (pbencPre pass salt time space)
    some (protKey b.st "extract" (b.buf.getD (space - 1) []))

theorem specFor_eq_foldl (f : BState → ℕ → BState) :
    ∀ (n k : ℕ) (s : BState), specFor f k n s = (List.range' k n).foldl f s := by
  intro n
  induction n with
  | zero => intro k s; rfl
  | succ n ih => intro k s; rw [specFor, List.range', List.foldl_cons, ih]

theorem foldl_funext {f g : BState → ℕ → BState} (h : ∀ s b, f s b = g s b) :
    ∀ (l : List ℕ) (s : BState), l.foldl f s = l.foldl g s := by
  intro l
  induction l with
  | nil => intro s; rfl
  | cons a t ih => intro s; rw [List.foldl_cons, List.foldl_cons, h, ih]

theorem foldl_ignore_len {g : BState → BState} :
    ∀ (l l' : List ℕ), l.length = l'.length → ∀ (s : BState),
      l.foldl (fun s _ => g s) s = l'.foldl (fun s _ => g s) s := by
  intro l
  induction l with
  | nil =>
    intro l' h s
    cases l' with
    | nil => rfl
    | cons b t' => simp at h
  | cons a t ih =>
    intro l' h s
    cases l' with
    | nil => simp at h
    | cons b t' =>
      rw [List.foldl_cons, List.foldl_cons]
      exact ih t' (by simpa using h) _

theorem specMixStep_eq (space : ℕ) (salt : List ℕ) (t : ℕ) (s : BState) (m : ℕ) :
    specMixStep specSeed space salt t s m = mixStep space salt t s m := by
  simp only [specMixStep, mixStep, specFor_eq_foldl, ← List.range_eq_range']
  exact foldl_funext (fun s' i => rfl) _ _

theorem specBalloon_eq (pp salt : List ℕ) (time space : ℕ) (st : ℕ) :
    specBalloon specSeed pp salt time space st = balloon pp salt time space st := by
  have hexp : ∀ (s : BState), specFor (fun s _ => expandStep s 0) 1 (space - 1) s =
      (List.range (space - 1)).foldl expandStep s := by
    intro s
    rw [specFor_eq_foldl]
    have h1 : (List.range' 1 (space - 1)).foldl (fun s _ => expandStep s 0) s =
        (List.range (space - 1)).foldl (fun s _ => expandStep s 0) s := by
      apply foldl_ignore_len
      simp
    rw [h1]
    exact foldl_funext (fun s' b => rfl) _ _
  have hpass : ∀ (t : ℕ) (s : BState), specFor (specMixStep specSeed space salt t) 0 space s =
      mixPass space salt s t := by
    intro t s
    rw [specFor_eq_foldl, mixPass, ← List.range_eq_range']
    exact foldl_funext (fun s' m => specMixStep_eq space salt t s' m) _ _
  have htop : ∀ (s : BState),
      specFor (fun s t => specFor (specMixStep specSeed space salt t) 0 space s) 0 time s =
      (List.range time).foldl (mixPass space salt) s := by
    intro s
    rw [specFor_eq_foldl, ← List.range_eq_range']
    exact foldl_funext (fun s' t => hpass t s') _ _
  simp only [specBalloon, balloon]
  rw [htop, hexp]

unseal ncExp ncAux nchunks chunkPow hlenAux encElemAux encElem withNat encLAux encL in
set_option maxRecDepth 400000 in
/-- C8 (counterexample): with the idx seed as the claim literally states
it — the bare 24-byte `le64(t) ‖ le64(m) ‖ le64(i)` — the claimed
recurrence arrives at a different protocol state than the code's `init`
already at `time = 1`, `space = 1`: the code hashes a full `N`-byte
zero-padded seed block, not the 24-byte concatenation. -/
theorem pbenc_balloon_recurrence_counterexample :
    pbencInitSpec specSeed24 [1] (List.range SALT_LEN) 1 1 ≠
      pbencInit [1] (List.range SALT_LEN) 1 1 := by
  decide

/-- C8 (amended): `init` computes the balloon buffer exactly by the claimed
recurrence once the idx seed is corrected to what the code writes — the
24-byte `le64(t) ‖ le64(m) ‖ le64(i)` zero-padded to a full `N`-byte
block — and finally rekeys the duplex with `block[space-1]`; the spec-side
transcription of that recurrence agrees with the source embedding of `init`
on every passphrase, salt, time and space. -/
theorem pbenc_balloon_recurrence (pass salt : List ℕ) (time space : ℕ) :
    pbencInitSpec specSeed pass salt time space = pbencInit pass salt time space := by
  simp only [pbencInitSpec, pbencInit, specBalloon_eq]

unseal ncExp ncAux nchunks chunkPow hlenAux encElemAux encElem withNat encLAux encL in
set_option maxRecDepth 400000 in
theorem pbenc_decrypt_wrong_passphrase_witness :
    pbencDecrypt [2] ((pbencEncrypt [1] (List.range SALT_LEN) 1 1 [Sym.raw 9]).getD [])
      = PbencResult.absent := by
  have hct : pbencEncrypt [1] (List.range SALT_LEN) 1 1 [Sym.raw 9] =
      some ((pbencEncrypt [1] (List.range SALT_LEN) 1 1 [Sym.raw 9]).getD []) := by
    decide
  exact pbenc_decrypt_wrong_passphrase (by decide) (by decide) (by decide) (by decide)
    (by decide) hct

/-! ## `mres` — multi-receiver streaming signcryption (src/mres.rs)

Embedding of `mres::encrypt`, `encrypt_message`, `decrypt`,
`decrypt_message`, `decrypt_header` and `decode_header`.  Three
collaborators of this revision are not among the repository sources and are
spec-modelled: the `crate::duplex` module (the duplex operations above,
§4.1), the four-argument revision of `sres::encrypt`/`sres::decrypt` that
`mres` calls (modelled over the sres embedding above with an internally
hedged ephemeral key pair and an empty nonce, §4.5), and the
`schnorr::Signer`/`Verifier` writer wrappers (a `veil.schnorr` duplex over
the accumulated stream, §4.4/§4.5).  Readers and writers become explicit
byte lists; the unbounded source loops carry fuel that the callers
instantiate with a sufficient value computed from the input length. -/

/-- Length of a data encryption key in bytes. -/
def DEK_LEN : ℕ := 32

/-- Length of a plaintext `mres` header: DEK, ephemeral public key, and
64-bit message offset. -/
def HEADER_LEN : ℕ := DEK_LEN + POINT_LEN + 8

/-- Length of one encrypted per-receiver header. -/
def ENC_HEADER_LEN : ℕ := HEADER_LEN + sresOVERHEAD

/-- Plaintext block length of the streaming body. -/
def BLOCK_LEN : ℕ := 32 * 1024

/-- Ciphertext block length of the streaming body. -/
def ENC_BLOCK_LEN : ℕ := BLOCK_LEN + TAG_LEN

/-- Modelled from the spec: the four-argument revision of `sres::encrypt`
called by `mres` (§4.5): the ephemeral scalar is derived internally by
hedging the sender's private key, and the nonce of the sres embedding is
empty in this revision.  The first RNG draw feeds the hedge; the rest feed
the `sign_duplex` retries. -/
def sres4Encrypt (Q fuel : ℕ) (rng : ℕ → List ℕ) (d_s q_s q_r : ZMod Q)
    (pt : List Sym) : Option (List Sym) :=
  let st := sresInit Q q_s q_r [] (q_r * d_s)
  let d_e := (squeezeScalarNZ Q (hedgeClone st (scalarEnc d_s) (rng 0))).1
  sresEncrypt Q fuel (fun i => rng (i + 1)) d_s q_s d_e (d_e * Gpt Q) q_r [] pt

/-- Modelled from the spec: the four-argument revision of `sres::decrypt`
called by `mres` (§4.5), returning only the plaintext. -/
def sres4Decrypt (Q : ℕ) (d_r q_r q_s : ZMod Q) (ct : List Sym) : Option (List Sym) :=
  match sresDecrypt Q d_r q_r q_s [] ct with
  | none => none
  | some r => some r.2

/-- Modelled from the spec: the state of the `Signer`/`Verifier` duplex
after absorbing the signer's public key and the accumulated stream (§4.4),
shared between signing and verification. -/
def signerInit (Q : ℕ) (q : ZMod Q) (msg : List Sym) : ℕ :=
  dupIntoKeyed (dupAbsorb (dupAbsorb (dupNew "veil.schnorr") (pointEnc q)) msg)

/-- Modelled from the spec: `Signer::sign` — sign the accumulated stream
with `sign_duplex` and no designated verifier. -/
def signerSign (Q fuel : ℕ) (rng : ℕ → List ℕ) (d q : ZMod Q) (msg : List Sym) :
    Option (List Sym) :=
  match schnorrSignDuplex Q fuel (signerInit Q q msg) d none rng 0 with
  | none => none
  | some r => some r.1

/-- Modelled from the spec: `Verifier::verify` — verify a signature against
the accumulated stream. -/
def verifierVerify (Q : ℕ) (q : ZMod Q) (msg : List Sym) (sig : List Sym) : Bool :=
  schnorrVerifyDuplex Q (signerInit Q q msg) q none sig

/-- The per-receiver header encryption loop of `mres::encrypt`: one
`sres::encrypt` call per receiver, concatenating the ciphertexts.  `idx`
indexes the per-receiver RNG stream. -/
def mresHeaders (Q fuel : ℕ) (rngs : ℕ → ℕ → List ℕ) (idx : ℕ) (d_s q_s : ZMod Q)
    (header : List Sym) : List (ZMod Q) → Option (List Sym)
  | [] => some []
  | q_r :: rest =>
    match sres4Encrypt Q fuel (rngs idx) d_s q_s q_r header with
    | none => none
    | some ct =>
      match mresHeaders Q fuel rngs (idx + 1) d_s q_s header rest with
      | none => none
      | some cts => some (ct ++ cts)

/-- Embedding of `encrypt_message` (src/mres.rs): read up to `BLOCK_LEN`
bytes, `seal` the block, `ratchet`, and stop after the first short block.
Returns the written ciphertext, the final duplex state, and the written
byte counter the source accumulates.  The fuel is instantiated by the
caller with `msg.length / BLOCK_LEN + 1`, which the loop never exhausts. -/
def encryptMessage : ℕ → ℕ → List Sym → List Sym × ℕ × ℕ
  | 0, st, _ => ([], st, 0)
  | fuel + 1, st, msg =>
    let sealed := dupSeal st (msg.take BLOCK_LEN)
    let st2 := dupRatchet sealed.2
    if msg.length < BLOCK_LEN then
      (sealed.1, st2, (msg.take BLOCK_LEN).length + TAG_LEN)
    else
      let rest := encryptMessage fuel st2 (msg.drop BLOCK_LEN)
      (sealed.1 ++ rest.1, rest.2.1, (msg.take BLOCK_LEN).length + TAG_LEN + rest.2.2)

/-- Embedding of `mres::encrypt` (src/mres.rs).  The writer is the returned
byte list; the returned counter is the source's
`header_len + ciphertext_len + sig.len()`.  `rngs` feeds the per-receiver
sres calls, `rhedge` the initial hedge, `srng` the signer; the absent value
models `sign_duplex` retry fuel running out. -/
def mresEncrypt (Q fuelS fuelG : ℕ) (rngs : ℕ → ℕ → List ℕ) (rhedge : List ℕ)
    (srng : ℕ → List ℕ) (d_s q_s : ZMod Q) (q_rs : List (ZMod Q))
    (pad msg : List Sym) : Option (List Sym × ℕ) :=
  let st1 := dupAbsorb (dupNew "veil.mres") (pointEnc q_s)
  let sq := squeezeScalarNZ Q (hedgeClone st1 (scalarEnc d_s) rhedge)
  let d_e := sq.1
  let dek := dupSqueeze sq.2 DEK_LEN
  let q_e := d_e * Gpt Q
  let msg_offset := q_rs.length * ENC_HEADER_LEN + pad.length
  let header := dek ++ (pointEnc q_e ++ (toLE 8 msg_offset).map .raw)
  match mresHeaders Q fuelS rngs 0 d_s q_s header q_rs with
  | none => none
  | some hdrs =>
    let streamed := hdrs ++ pad
    let st3 := dupRekey (dupAbsorb st1 streamed) dek
    let em := encryptMessage (msg.length / BLOCK_LEN + 1) st3 msg
    match signerSign Q fuelG srng d_e q_e (streamed ++ em.1) with
    | none => none
    | some sig =>
      let ecs := dupEncrypt em.2.1 sig
      some (streamed ++ (em.1 ++ ecs.1), streamed.length + (em.2.2 + ecs.1.length))

/-- Embedding of `decode_header` (src/mres.rs): split a recovered header
into the DEK, the ephemeral public key, and the message offset. -/
def decodeHeader (Q : ℕ) (h : List Sym) : Option (List Sym × ZMod Q × ℕ) :=
  if h.length ≠ HEADER_LEN then none
  else
    match decodePoint Q ((h.drop DEK_LEN).take POINT_LEN) with
    | none => none
    | some q_e => some (h.take DEK_LEN, q_e, fromLE (((h.drop DEK_LEN).drop POINT_LEN).map symVal))

/-- Embedding of `decrypt_header` (src/mres.rs): scan successive
`ENC_HEADER_LEN` chunks until one sres-decrypts and decodes; return the DEK,
the ephemeral public key, the message offset, and the number of bytes
consumed by the scan.  A trailing chunk shorter than `ENC_HEADER_LEN` ends
the scan with the absent value.  The fuel is instantiated by the caller with
`input.length / ENC_HEADER_LEN + 1`, which the scan never exhausts. -/
def decryptHeader (Q : ℕ) (d_r q_r q_s : ZMod Q) :
    ℕ → List Sym → Option ((List Sym × ZMod Q × ℕ) × ℕ)
  | 0, _ => none
  | fuel + 1, input =>
    if input.length < ENC_HEADER_LEN then none
    else
      match (sres4Decrypt Q d_r q_r q_s (input.take ENC_HEADER_LEN)).bind (decodeHeader Q) with
      | some r => some (r, ENC_HEADER_LEN)
      | none =>
        match decryptHeader Q d_r q_r q_s fuel (input.drop ENC_HEADER_LEN) with
        | none => none
        | some (r, consumed) => some (r, ENC_HEADER_LEN + consumed)

/-- Embedding of one iteration of the `decrypt_message` loop (src/mres.rs),
with the recursive continuation passed as `rec`.  The loop's read buffer
always retains a `SIGNATURE_LEN`-byte lookahead; the recursion keeps that
lookahead at the front of `rem`.  Returns the bytes passed to the verifier,
the written plaintext, the written byte counter, and the decrypted trailing
signature (absent when a block's tag fails).  The source's out-of-range
buffer accesses on inputs shorter than a signature (which panic) are
modelled by the truncated subtraction, which makes the final verification
fail instead.  The fuel is instantiated by the caller with
`rem.length / ENC_BLOCK_LEN + 2`, which the loop never exhausts. -/
def decryptMessageGo (rec : ℕ → List Sym → List Sym × List Sym × ℕ × Option (List Sym))
    (st : ℕ) (rem : List Sym) : List Sym × List Sym × ℕ × Option (List Sym) :=
  if rem.length ≤ SIGNATURE_LEN then
    ([], [], 0, some (dupDecrypt st rem).1)
  else
    let n := min (ENC_BLOCK_LEN + SIGNATURE_LEN) rem.length - SIGNATURE_LEN
    let block := rem.take n
    let us := dupUnseal st block
    us.1.elim (block, [], 0, none) fun pt =>
      let rest := rec (dupRatchet us.2) (rem.drop n)
      (block ++ rest.1, pt ++ rest.2.1, pt.length + rest.2.2.1, rest.2.2.2)

/-- The fuelled loop of `decrypt_message`: each iteration is one
`decryptMessageGo` step whose recursive continuation consumes one unit of
fuel. -/
def decryptMessage : ℕ → ℕ → List Sym → List Sym × List Sym × ℕ × Option (List Sym)
  | 0, _, _ => ([], [], 0, none)
  | fuel + 1, st, rem => decryptMessageGo (decryptMessage fuel) st rem

theorem decryptMessage_succ (fuel st : ℕ) (rem : List Sym) :
    decryptMessage (fuel + 1) st rem = decryptMessageGo (decryptMessage fuel) st rem := rfl

/-- Embedding of `mres::decrypt` (src/mres.rs).  Returns the verification
flag and written byte counter the source returns, together with the
plaintext written to the writer. -/
def mresDecrypt (Q : ℕ) (d_r q_r q_s : ZMod Q) (ct : List Sym) :
    (Bool × ℕ) × List Sym :=
  match decryptHeader Q d_r q_r q_s (ct.length / ENC_HEADER_LEN + 1) ct with
  | none => ((false, 0), [])
  | some ((dek, q_e, mo), consumed) =>
    let streamed := ct.take consumed ++ (ct.drop consumed).take (mo - consumed)
    let rest := (ct.drop consumed).drop (mo - consumed)
    let st3 := dupRekey (dupAbsorb (dupAbsorb (dupNew "veil.mres") (pointEnc q_s)) streamed) dek
    let dm := decryptMessage (rest.length / ENC_BLOCK_LEN + 2) st3 rest
    match dm.2.2.2 with
    | some sig => ((verifierVerify Q q_e (streamed ++ dm.1) sig, dm.2.2.1), dm.2.1)
    | none => ((false, dm.2.2.1), dm.2.1)

theorem pointEnc_inj {Q : ℕ} [NeZero Q] (hQ : Q < 256 ^ 32) {p p' : ZMod Q}
    (h : pointEnc p = pointEnc p') : p = p' := by
  have h1 := decodePoint_pointEnc hQ p
  rw [h, decodePoint_pointEnc hQ p'] at h1
  exact (Option.some.inj h1).symm

theorem dupAbsorb_data_ne {st : ℕ} {d d' : List Sym} (h : d ≠ d') :
    dupAbsorb st d ≠ dupAbsorb st d' := by
  intro he
  have h2 := (mixOp_inj he).2
  simp only [List.cons.injEq, true_and, and_true] at h2
  exact h (encData_inj h2)

theorem dupAbsorb_st_ne {st st' : ℕ} {d d' : List Sym} (h : st ≠ st') :
    dupAbsorb st d ≠ dupAbsorb st' d' := mixOp_st_ne h

theorem dupIntoKeyed_st_ne {st st' : ℕ} (h : st ≠ st') :
    dupIntoKeyed st ≠ dupIntoKeyed st' := mixOp_st_ne h

theorem dupKeyStream_ne {st st' : ℕ} (h : st ≠ st') :
    dupKeyStream st ≠ dupKeyStream st' := mixOp_st_ne h

theorem dupSeal_length (st : ℕ) (pt : List Sym) :
    (dupSeal st pt).1.length = pt.length + TAG_LEN := by
  simp [dupSeal, dupEncrypt, dupTag, TAG_LEN, encHead_length]

theorem dupSqueeze_length (st n : ℕ) : (dupSqueeze st n).length = n := by
  cases n <;> simp [dupSqueeze]

theorem sresEncrypt_length {Q fuel : ℕ} {rng : ℕ → List ℕ} {d_s q_s d_e q_e q_r : ZMod Q}
    {nonce : List ℕ} {pt ct : List Sym}
    (h : sresEncrypt Q fuel rng d_s q_s d_e q_e q_r nonce pt = some ct) :
    ct.length = pt.length + sresOVERHEAD := by
  simp only [sresEncrypt] at h
  cases hsgn : signDuplexAux Q fuel
      (dupEncrypt (dupAbsorb (dupEncrypt (sresInit Q q_s q_r nonce (q_r * d_s)) (pointEnc q_e)).2
        (pointEnc (q_r * d_e))) pt).2 d_s rng 0 with
  | none => rw [hsgn] at h; cases h
  | some res =>
    obtain ⟨⟨ict, s⟩, st7⟩ := res
    rw [hsgn] at h
    cases h
    obtain ⟨rnd, hatt, hs⟩ := signDuplexAux_some hsgn
    simp only [signAttempt, Prod.mk.injEq] at hatt
    obtain ⟨⟨hict, hseq⟩, hst7⟩ := hatt
    simp only [List.length_append]
    have h1 : (dupEncrypt (sresInit Q q_s q_r nonce (q_r * d_s)) (pointEnc q_e)).1.length
        = POINT_LEN := by
      simp only [dupEncrypt]
      rw [encHead_length, pointEnc_length]
    have h2 : (dupEncrypt (dupAbsorb (dupEncrypt (sresInit Q q_s q_r nonce (q_r * d_s))
        (pointEnc q_e)).2 (pointEnc (q_r * d_e))) pt).1.length = pt.length := by
      simp only [dupEncrypt]
      rw [encHead_length]
    have h3 : ict.length = POINT_LEN := by
      rw [← hict]
      simp only [dupEncrypt]
      rw [encHead_length, pointEnc_length]
    have h4 : (dupEncrypt st7 (pointEnc (q_r * s))).1.length = POINT_LEN := by
      simp only [dupEncrypt]
      rw [encHead_length, pointEnc_length]
    rw [h1, h2, h3, h4]
    simp only [sresOVERHEAD]
    ring

theorem sres4_roundtrip (Q : ℕ) [Fact (Nat.Prime Q)] (hQ : Q < 256 ^ 32)
    {d_s q_s d_r q_r : ZMod Q}
    (hqs : q_s = d_s * Gpt Q) (hqr : q_r = d_r * Gpt Q) (hdr : d_r ≠ 0)
    (fuel : ℕ) (rng : ℕ → List ℕ) (pt : List Sym) {ct : List Sym}
    (hct : sres4Encrypt Q fuel rng d_s q_s q_r pt = some ct) :
    ct.length = pt.length + sresOVERHEAD ∧
    sres4Decrypt Q d_r q_r q_s ct = some pt := by
  simp only [sres4Encrypt] at hct
  have hde : (squeezeScalarNZ Q (hedgeClone (sresInit Q q_s q_r [] (q_r * d_s))
      (scalarEnc d_s) (rng 0))).1 ≠ 0 := squeezeScalarNZ_ne_zero Q _
  obtain ⟨hlen, hdec⟩ := sres_roundtrip_core Q hQ d_s q_s _ _ d_r q_r
    hqs rfl hqr hde hdr fuel (fun i => rng (i + 1)) [] pt hct
  constructor
  · rw [hlen]
    norm_num [sresOVERHEAD, POINT_LEN]
  · simp only [sres4Decrypt, hdec]

theorem pointEnc_cons {Q : ℕ} (p : ZMod Q) :
    pointEnc p = Sym.raw (ZMod.val p % 256) ::
      ((toLE 31 (ZMod.val p / 256)).map .raw) := rfl

theorem decHead_encHead_ne {kE kD : ℕ} (hk : kE ≠ kD) (b : Sym) (rest : List Sym) :
    decHead kD (encHead kE (b :: rest)) =
      Sym.dec (Sym.enc b kE) kD :: (rest.map (Sym.enc · 0)).map (symDec 0) := by
  simp only [encHead, decHead, symDec]
  rw [if_neg hk]

theorem decodePoint_dec_head (Q : ℕ) (x : Sym) (k : ℕ) (rest : List Sym) :
    decodePoint Q (Sym.dec x k :: rest) = none := by
  simp [decodePoint, unraw]

theorem sresInit_receiver_ne {Q : ℕ} [NeZero Q] (hQ : Q < 256 ^ 32)
    {q_s q_r q' : ZMod Q} (hne : q' ≠ q_r) (e1 e2 : ZMod Q) (nonce : List ℕ) :
    sresInit Q q_s q' nonce e1 ≠ sresInit Q q_s q_r nonce e2 := by
  simp only [sresInit]
  apply dupIntoKeyed_st_ne
  apply dupAbsorb_st_ne
  apply dupAbsorb_st_ne
  apply dupAbsorb_data_ne
  intro he
  exact hne (pointEnc_inj hQ he)

theorem sresDecrypt_wrong_receiver (Q : ℕ) [NeZero Q] (hQ : Q < 256 ^ 32)
    {d_s q_s d_e q_e q' : ZMod Q} (d_r : ZMod Q) {q_r : ZMod Q} (hne : q' ≠ q_r)
    {fuel : ℕ} {rng : ℕ → List ℕ} {nonce : List ℕ} {pt ct : List Sym}
    (hct : sresEncrypt Q fuel rng d_s q_s d_e q_e q' nonce pt = some ct) :
    sresDecrypt Q d_r q_r q_s nonce ct = none := by
  have hlen : ct.length = pt.length + sresOVERHEAD := sresEncrypt_length hct
  simp only [sresEncrypt] at hct
  cases hsgn : signDuplexAux Q fuel
      (dupEncrypt (dupAbsorb (dupEncrypt (sresInit Q q_s q' nonce (q' * d_s)) (pointEnc q_e)).2
        (pointEnc (q' * d_e))) pt).2 d_s rng 0 with
  | none => rw [hsgn] at hct; cases hct
  | some res =>
    obtain ⟨⟨ict, s⟩, st7⟩ := res
    rw [hsgn] at hct
    have hctv : ct = (dupEncrypt (sresInit Q q_s q' nonce (q' * d_s)) (pointEnc q_e)).1 ++
        ((dupEncrypt
            (dupAbsorb (dupEncrypt (sresInit Q q_s q' nonce (q' * d_s)) (pointEnc q_e)).2
              (pointEnc (q' * d_e))) pt).1 ++
          (ict ++ (dupEncrypt st7 (pointEnc (q' * s))).1)) := by
      cases hct
      rfl
    have hstne : sresInit Q q_s q' nonce (q' * d_s) ≠ sresInit Q q_s q_r nonce (q_s * d_r) :=
      sresInit_receiver_ne hQ hne _ _ nonce
    have hkne : dupKeyStream (sresInit Q q_s q' nonce (q' * d_s))
        ≠ dupKeyStream (sresInit Q q_s q_r nonce (q_s * d_r)) := dupKeyStream_ne hstne
    have hnotshort : ¬ ct.length < sresOVERHEAD := by
      rw [hlen]
      omega
    have hlen1 : (dupEncrypt (sresInit Q q_s q' nonce (q' * d_s)) (pointEnc q_e)).1.length
        = POINT_LEN := by
      simp only [dupEncrypt]
      rw [encHead_length, pointEnc_length]
    have htake : ct.take POINT_LEN
        = (dupEncrypt (sresInit Q q_s q' nonce (q' * d_s)) (pointEnc q_e)).1 := by
      rw [hctv]
      exact take_app _ _ hlen1
    have hdec1 : decHead (dupKeyStream (sresInit Q q_s q_r nonce (q_s * d_r)))
        (encHead (dupKeyStream (sresInit Q q_s q' nonce (q' * d_s))) (pointEnc q_e))
        = Sym.dec (Sym.enc (Sym.raw (ZMod.val q_e % 256))
            (dupKeyStream (sresInit Q q_s q' nonce (q' * d_s))))
            (dupKeyStream (sresInit Q q_s q_r nonce (q_s * d_r)))
          :: (((toLE 31 (ZMod.val q_e / 256)).map .raw).map (Sym.enc · 0)).map (symDec 0) := by
      rw [pointEnc_cons]
      exact decHead_encHead_ne hkne _ _
    rw [sresDecrypt, if_neg hnotshort]
    simp only [htake, dupDecrypt, dupEncrypt, hdec1, decodePoint_dec_head]

theorem sres4Decrypt_wrong_receiver (Q : ℕ) [NeZero Q] (hQ : Q < 256 ^ 32)
    {d_s q_s q' : ZMod Q} (d_r : ZMod Q) {q_r : ZMod Q} (hne : q' ≠ q_r)
    {fuel : ℕ} {rng : ℕ → List ℕ} {pt ct : List Sym}
    (hct : sres4Encrypt Q fuel rng d_s q_s q' pt = some ct) :
    sres4Decrypt Q d_r q_r q_s ct = none := by
  simp only [sres4Encrypt] at hct
  simp only [sres4Decrypt, sresDecrypt_wrong_receiver Q hQ d_r hne hct]

set_option maxHeartbeats 1000000 in
theorem signerSign_verify (Q : ℕ) [Fact (Nat.Prime Q)] (hQ : Q < 256 ^ 32)
    {d q : ZMod Q} (hq : q = d * Gpt Q) {fuel : ℕ} {rng : ℕ → List ℕ} {msg : List Sym}
    {sig : List Sym} (hsig : signerSign Q fuel rng d q msg = some sig) :
    sig.length = SIGNATURE_LEN ∧ verifierVerify Q q msg sig = true := by
  subst hq
  simp only [Gpt, mul_one] at hsig ⊢
  simp only [signerSign] at hsig
  cases hsd : schnorrSignDuplex Q fuel (signerInit Q d msg) d none rng 0 with
  | none => rw [hsd] at hsig; cases hsig
  | some res =>
    rw [hsd] at hsig
    obtain ⟨rnd, hatt, hs0⟩ := schnorrSignDuplex_some hsd
    simp only [schnorrAttempt, Gpt, mul_one] at hatt hs0
    set st := signerInit Q d msg with hst
    set k := (squeezeScalarNZ Q (hedgeClone st (scalarEnc d) rnd)).1 with hk
    set ec1 := dupEncrypt st (pointEnc k) with hec1
    set r := (squeezeScalarNZ Q ec1.2).1 with hr
    set s := d * r + k with hs
    set ec2 := dupEncrypt (squeezeScalarNZ Q ec1.2).2 (scalarEnc s) with hec2
    have hsigv : sig = ec1.1 ++ ec2.1 := by
      cases hsig
      rw [← hatt]
    have hlen1 : ec1.1.length = POINT_LEN := by
      rw [hec1]
      simp only [dupEncrypt]
      rw [encHead_length, pointEnc_length]
    have hlen2 : ec2.1.length = SCALAR_LEN := by
      rw [hec2]
      simp only [dupEncrypt]
      rw [encHead_length, scalarEnc_length]
    have htake : sig.take POINT_LEN = ec1.1 := by
      rw [hsigv]
      exact take_app _ _ hlen1
    have hdrop : sig.drop POINT_LEN = ec2.1 := by
      rw [hsigv]
      exact drop_app _ _ hlen1
    have hdc1 : dupDecrypt st ec1.1 = (pointEnc k, ec1.2) := by
      rw [hec1]
      exact dupDecrypt_dupEncrypt st (pointEnc k)
    have hdc2 : dupDecrypt (squeezeScalarNZ Q ec1.2).2 ec2.1 =
        (scalarEnc s, ec2.2) := by
      rw [hec2]
      exact dupDecrypt_dupEncrypt _ (scalarEnc s)
    have heqn : k = s * Gpt Q - r * d := by
      rw [hs, Gpt, mul_one]
      ring
    constructor
    · rw [hsigv, List.length_append, hlen1, hlen2]
      rfl
    · rw [verifierVerify, schnorrVerifyDuplex]
      simp only [← hst, htake, hdc1, decodePoint_pointEnc hQ, hdrop, ← hr, hdc2,
        decodeScalar_scalarEnc hQ]
      simp only [decide_eq_true_eq]
      exact heqn

theorem encryptMessage_length : ∀ (fuel st : ℕ) (msg : List Sym),
    msg.length / BLOCK_LEN < fuel →
    (encryptMessage fuel st msg).1.length
        = msg.length + (msg.length / BLOCK_LEN + 1) * TAG_LEN ∧
    (encryptMessage fuel st msg).2.2 = (encryptMessage fuel st msg).1.length := by
  intro fuel
  induction fuel with
  | zero => intro st msg h; exact absurd h (Nat.not_lt_zero _)
  | succ fuel ih =>
    intro st msg h
    by_cases hlt : msg.length < BLOCK_LEN
    · have hdiv : msg.length / BLOCK_LEN = 0 := Nat.div_eq_of_lt hlt
      have htk : (msg.take BLOCK_LEN).length = msg.length := by
        rw [List.length_take]
        omega
      constructor
      · simp only [encryptMessage, if_pos hlt, dupSeal_length, htk, hdiv]
        ring
      · simp only [encryptMessage, if_pos hlt, dupSeal_length, htk]
    · push_neg at hlt
      have hBpos : 0 < BLOCK_LEN := by norm_num [BLOCK_LEN]
      have hdiv : msg.length / BLOCK_LEN = (msg.length - BLOCK_LEN) / BLOCK_LEN + 1 :=
        Nat.div_eq_sub_div hBpos hlt
      have hdrop : (msg.drop BLOCK_LEN).length = msg.length - BLOCK_LEN := by
        rw [List.length_drop]
      have htk : (msg.take BLOCK_LEN).length = BLOCK_LEN := by
        rw [List.length_take]
        omega
      have hrec := ih (dupRatchet (dupSeal st (msg.take BLOCK_LEN)).2) (msg.drop BLOCK_LEN)
        (by rw [hdrop]; omega)
      simp only [encryptMessage, if_neg (by omega : ¬ msg.length < BLOCK_LEN)]
      simp only [List.length_append, dupSeal_length, htk, hrec.1, hrec.2, hdrop, hdiv]
      constructor
      · rw [show TAG_LEN = 16 from rfl]
        omega
      · trivial

theorem decryptMessage_encryptMessage : ∀ (fuel st : ℕ) (msg sigCt : List Sym),
    msg.length / BLOCK_LEN < fuel →
    sigCt.length = SIGNATURE_LEN →
    decryptMessage (fuel + 1) st ((encryptMessage fuel st msg).1 ++ sigCt) =
      ((encryptMessage fuel st msg).1, msg, msg.length,
        some (dupDecrypt (encryptMessage fuel st msg).2.1 sigCt).1) := by
  intro fuel
  induction fuel with
  | zero => intro st msg sigCt h _; exact absurd h (Nat.not_lt_zero _)
  | succ fuel ih =>
    intro st msg sigCt h hsl
    have hS : SIGNATURE_LEN = 64 := rfl
    have hB : BLOCK_LEN = 32768 := rfl
    have hT : TAG_LEN = 16 := rfl
    have hEB : ENC_BLOCK_LEN = 32784 := rfl
    by_cases hlt : msg.length < BLOCK_LEN
    · have htk : (msg.take BLOCK_LEN).length = msg.length := by
        rw [List.length_take]
        omega
      simp only [encryptMessage, if_pos hlt]
      have hrl : ((dupSeal st (msg.take BLOCK_LEN)).1 ++ sigCt).length
          = msg.length + TAG_LEN + SIGNATURE_LEN := by
        rw [List.length_append, dupSeal_length, htk, hsl]
      have hnotend : ¬ ((dupSeal st (msg.take BLOCK_LEN)).1 ++ sigCt).length
          ≤ SIGNATURE_LEN := by
        rw [hrl]
        omega
      rw [decryptMessage_succ]
      simp only [decryptMessageGo]
      rw [if_neg hnotend]
      have hn : min (ENC_BLOCK_LEN + SIGNATURE_LEN)
            ((dupSeal st (msg.take BLOCK_LEN)).1 ++ sigCt).length - SIGNATURE_LEN
          = msg.length + TAG_LEN := by
        rw [hrl]
        omega
      rw [hn]
      have hsealen : (dupSeal st (msg.take BLOCK_LEN)).1.length = msg.length + TAG_LEN := by
        rw [dupSeal_length, htk]
      have htkb : ((dupSeal st (msg.take BLOCK_LEN)).1 ++ sigCt).take (msg.length + TAG_LEN)
          = (dupSeal st (msg.take BLOCK_LEN)).1 := take_app _ _ hsealen
      have hdkb : ((dupSeal st (msg.take BLOCK_LEN)).1 ++ sigCt).drop (msg.length + TAG_LEN)
          = sigCt := drop_app _ _ hsealen
      rw [htkb, hdkb]
      have hus := dupUnseal_dupSeal st (msg.take BLOCK_LEN)
      have htkmsg : msg.take BLOCK_LEN = msg := List.take_of_length_le (by omega)
      rw [htkmsg] at hus ⊢
      simp only [hus, Option.elim]
      have hend : sigCt.length ≤ SIGNATURE_LEN := by omega
      rw [decryptMessage_succ]
      simp only [decryptMessageGo]
      rw [if_pos hend]
      simp
    · push_neg at hlt
      have htk : (msg.take BLOCK_LEN).length = BLOCK_LEN := by
        rw [List.length_take]
        omega
      have hBpos : 0 < BLOCK_LEN := by omega
      have hdiv : msg.length / BLOCK_LEN = (msg.length - BLOCK_LEN) / BLOCK_LEN + 1 :=
        Nat.div_eq_sub_div hBpos hlt
      have hdrop : (msg.drop BLOCK_LEN).length = msg.length - BLOCK_LEN := by
        rw [List.length_drop]
      have hreclen := encryptMessage_length fuel
        (dupRatchet (dupSeal st (msg.take BLOCK_LEN)).2) (msg.drop BLOCK_LEN)
        (by rw [hdrop]; omega)
      simp only [encryptMessage, if_neg (by omega : ¬ msg.length < BLOCK_LEN)]
      have hrl : (((dupSeal st (msg.take BLOCK_LEN)).1 ++
            (encryptMessage fuel (dupRatchet (dupSeal st (msg.take BLOCK_LEN)).2)
              (msg.drop BLOCK_LEN)).1) ++ sigCt).length
          = BLOCK_LEN + TAG_LEN +
            ((msg.length - BLOCK_LEN) + ((msg.length - BLOCK_LEN) / BLOCK_LEN + 1) * TAG_LEN)
            + SIGNATURE_LEN := by
        simp only [List.length_append, dupSeal_length, htk, hsl, hreclen.1, hdrop]
      rw [List.append_assoc]
      rw [decryptMessage_succ]
      simp only [decryptMessageGo]
      have hno : ¬ ((dupSeal st (msg.take BLOCK_LEN)).1 ++
            ((encryptMessage fuel (dupRatchet (dupSeal st (msg.take BLOCK_LEN)).2)
              (msg.drop BLOCK_LEN)).1 ++ sigCt)).length ≤ SIGNATURE_LEN := by
        rw [← List.append_assoc, hrl]
        omega
      rw [if_neg hno]
      have hn : min (ENC_BLOCK_LEN + SIGNATURE_LEN)
            ((dupSeal st (msg.take BLOCK_LEN)).1 ++
              ((encryptMessage fuel (dupRatchet (dupSeal st (msg.take BLOCK_LEN)).2)
                (msg.drop BLOCK_LEN)).1 ++ sigCt)).length - SIGNATURE_LEN
          = ENC_BLOCK_LEN := by
        rw [← List.append_assoc, hrl]
        have hge : ENC_BLOCK_LEN + SIGNATURE_LEN ≤ BLOCK_LEN + TAG_LEN +
            ((msg.length - BLOCK_LEN) +
              ((msg.length - BLOCK_LEN) / BLOCK_LEN + 1) * TAG_LEN) + SIGNATURE_LEN := by
          omega
        rw [min_eq_left hge, Nat.add_sub_cancel]
      rw [hn]
      have hsealen : (dupSeal st (msg.take BLOCK_LEN)).1.length = ENC_BLOCK_LEN := by
        rw [dupSeal_length, htk]
        rfl
      rw [take_app _ _ hsealen, drop_app _ _ hsealen]
      have hus := dupUnseal_dupSeal st (msg.take BLOCK_LEN)
      simp only [hus, Option.elim]
      rw [ih (dupRatchet (dupSeal st (msg.take BLOCK_LEN)).2) (msg.drop BLOCK_LEN) sigCt
        (by rw [hdrop]; omega) hsl]
      simp only [Prod.mk.injEq]
      refine ⟨trivial, ?_, ?_, trivial⟩
      · rw [List.take_append_drop]
      · have := htk
        rw [List.length_take] at this
        omega

theorem decodeHeader_mk {Q : ℕ} [NeZero Q] (hQ : Q < 256 ^ 32) (dek : List Sym)
    (hdek : dek.length = DEK_LEN) (q_e : ZMod Q) {mo : ℕ} (hmo : mo < 256 ^ 8) :
    decodeHeader Q (dek ++ (pointEnc q_e ++ (toLE 8 mo).map Sym.raw)) = some (dek, q_e, mo) := by
  have hlen : (dek ++ (pointEnc q_e ++ (toLE 8 mo).map Sym.raw)).length = HEADER_LEN := by
    simp only [List.length_append, hdek, pointEnc_length, List.length_map, toLE_length]
    rfl
  have hd1 : (dek ++ (pointEnc q_e ++ (toLE 8 mo).map Sym.raw)).drop DEK_LEN
      = pointEnc q_e ++ (toLE 8 mo).map Sym.raw := drop_app _ _ hdek
  have ht1 : (dek ++ (pointEnc q_e ++ (toLE 8 mo).map Sym.raw)).take DEK_LEN = dek :=
    take_app _ _ hdek
  have ht2 : (pointEnc q_e ++ (toLE 8 mo).map Sym.raw).take POINT_LEN = pointEnc q_e :=
    take_app _ _ (pointEnc_length q_e)
  have hd2 : (pointEnc q_e ++ (toLE 8 mo).map Sym.raw).drop POINT_LEN = (toLE 8 mo).map Sym.raw :=
    drop_app _ _ (pointEnc_length q_e)
  rw [decodeHeader, if_neg (by rw [hlen]; exact fun hne => hne rfl), hd1, ht2,
    decodePoint_pointEnc hQ]
  rw [ht1, hd2, map_symVal_raw, fromLE_toLE hmo]

theorem signerSign_length {Q fuel : ℕ} {rng : ℕ → List ℕ} {d q : ZMod Q}
    {msg sig : List Sym} (h : signerSign Q fuel rng d q msg = some sig) :
    sig.length = SIGNATURE_LEN := by
  simp only [signerSign] at h
  cases hsd : schnorrSignDuplex Q fuel (signerInit Q q msg) d none rng 0 with
  | none => rw [hsd] at h; cases h
  | some res =>
    rw [hsd] at h
    obtain ⟨rnd, hatt, hs0⟩ := schnorrSignDuplex_some hsd
    have hsigv : sig = (schnorrAttempt Q (signerInit Q q msg) d none rnd).1.1 := by
      cases h
      rw [← hatt]
    rw [hsigv]
    simp only [schnorrAttempt, dupEncrypt]
    rw [List.length_append, encHead_length, encHead_length, pointEnc_length, scalarEnc_length]
    rfl

theorem mresHeaders_length {Q fuelS : ℕ} {rngs : ℕ → ℕ → List ℕ} {d_s q_s : ZMod Q}
    {header : List Sym} (hhl : header.length = HEADER_LEN) :
    ∀ (q_rs : List (ZMod Q)) (idx : ℕ) {hdrs : List Sym},
      mresHeaders Q fuelS rngs idx d_s q_s header q_rs = some hdrs →
      hdrs.length = q_rs.length * ENC_HEADER_LEN := by
  intro q_rs
  induction q_rs with
  | nil =>
    intro idx hdrs h
    simp only [mresHeaders] at h
    rw [← Option.some.inj h]
    simp
  | cons q1 rest ih =>
    intro idx hdrs h
    simp only [mresHeaders] at h
    cases hce : sres4Encrypt Q fuelS (rngs idx) d_s q_s q1 header with
    | none => rw [hce] at h; exact absurd h (by simp)
    | some c =>
      simp only [hce] at h
      cases hmh : mresHeaders Q fuelS rngs (idx + 1) d_s q_s header rest with
      | none => rw [hmh] at h; exact absurd h (by simp)
      | some cs =>
        simp only [hmh] at h
        rw [← Option.some.inj h]
        have hcl : c.length = HEADER_LEN + sresOVERHEAD := by
          have hce2 := hce
          simp only [sres4Encrypt] at hce2
          rw [sresEncrypt_length hce2, hhl]
        rw [List.length_append, hcl, ih (idx + 1) hmh, List.length_cons]
        rw [show ENC_HEADER_LEN = HEADER_LEN + sresOVERHEAD from rfl]
        ring

theorem encryptMessage_fuel : ∀ (f1 f2 st : ℕ) (msg : List Sym),
    msg.length / BLOCK_LEN < f1 → msg.length / BLOCK_LEN < f2 →
    encryptMessage f1 st msg = encryptMessage f2 st msg := by
  intro f1
  induction f1 with
  | zero => intro f2 st msg h1 _; exact absurd h1 (Nat.not_lt_zero _)
  | succ f1 ih =>
    intro f2 st msg h1 h2
    cases f2 with
    | zero => exact absurd h2 (Nat.not_lt_zero _)
    | succ f2 =>
      by_cases hlt : msg.length < BLOCK_LEN
      · simp only [encryptMessage, if_pos hlt]
      · push_neg at hlt
        have hBpos : 0 < BLOCK_LEN := by norm_num [BLOCK_LEN]
        have hdiv : msg.length / BLOCK_LEN = (msg.length - BLOCK_LEN) / BLOCK_LEN + 1 :=
          Nat.div_eq_sub_div hBpos hlt
        have hdrop : (msg.drop BLOCK_LEN).length = msg.length - BLOCK_LEN :=
          List.length_drop _ _
        simp only [encryptMessage, if_neg (not_lt.mpr hlt)]
        rw [ih f2 (dupRatchet (dupSeal st (msg.take BLOCK_LEN)).2) (msg.drop BLOCK_LEN)
          (by rw [hdrop]; omega) (by rw [hdrop]; omega)]

theorem decryptHeader_scan (Q : ℕ) [Fact (Nat.Prime Q)] (hQ : Q < 256 ^ 32)
    {d_s q_s d_r q_r : ZMod Q}
    (hqs : q_s = d_s * Gpt Q) (hqr : q_r = d_r * Gpt Q) (hdr : d_r ≠ 0)
    {fuelS : ℕ} {rngs : ℕ → ℕ → List ℕ} {header : List Sym}
    {dek : List Sym} {q_e : ZMod Q} {mo : ℕ}
    (hhd : decodeHeader Q header = some (dek, q_e, mo))
    (hhl : header.length = HEADER_LEN) :
    ∀ (q_rs : List (ZMod Q)) (idx fuel : ℕ) (tail : List Sym) {hdrs : List Sym},
      mresHeaders Q fuelS rngs idx d_s q_s header q_rs = some hdrs →
      q_r ∈ q_rs →
      q_rs.length ≤ fuel →
      ∃ k, k < q_rs.length ∧
        decryptHeader Q d_r q_r q_s fuel (hdrs ++ tail)
          = some ((dek, q_e, mo), (k + 1) * ENC_HEADER_LEN) := by
  intro q_rs
  induction q_rs with
  | nil =>
    intro idx fuel tail hdrs _ hmem _
    exact absurd hmem (List.not_mem_nil q_r)
  | cons q1 rest ih =>
    intro idx fuel tail hdrs h hmem hfuel
    cases fuel with
    | zero => simp only [List.length_cons] at hfuel; omega
    | succ fuel =>
      have hfl : rest.length ≤ fuel := by
        simp only [List.length_cons] at hfuel
        omega
      simp only [mresHeaders] at h
      cases hce : sres4Encrypt Q fuelS (rngs idx) d_s q_s q1 header with
      | none => rw [hce] at h; exact absurd h (by simp)
      | some c =>
        simp only [hce] at h
        cases hmh : mresHeaders Q fuelS rngs (idx + 1) d_s q_s header rest with
        | none => rw [hmh] at h; exact absurd h (by simp)
        | some cs =>
          simp only [hmh] at h
          have heq := Option.some.inj h
          subst heq
          have hcl : c.length = ENC_HEADER_LEN := by
            have hce2 := hce
            simp only [sres4Encrypt] at hce2
            rw [sresEncrypt_length hce2, hhl]
            rfl
          have hns : ¬ ((c ++ cs) ++ tail).length < ENC_HEADER_LEN := by
            rw [List.append_assoc, List.length_append, hcl]
            omega
          have htk : ((c ++ cs) ++ tail).take ENC_HEADER_LEN = c := by
            rw [List.append_assoc]
            exact take_app _ _ hcl
          have hdk : ((c ++ cs) ++ tail).drop ENC_HEADER_LEN = cs ++ tail := by
            rw [List.append_assoc]
            exact drop_app _ _ hcl
          by_cases hq1 : q1 = q_r
          · subst hq1
            obtain ⟨-, hdec⟩ := sres4_roundtrip Q hQ hqs hqr hdr fuelS (rngs idx) header hce
            refine ⟨0, Nat.succ_pos _, ?_⟩
            rw [decryptHeader, if_neg hns, htk, hdk]
            simp only [hdec, Option.bind, hhd]
            rw [show (0 + 1) * ENC_HEADER_LEN = ENC_HEADER_LEN from by ring]
          · have hwr : sres4Decrypt Q d_r q_r q_s c = none :=
              sres4Decrypt_wrong_receiver Q hQ d_r hq1 hce
            have hmem2 : q_r ∈ rest := by
              rcases List.mem_cons.mp hmem with h1 | h1
              · exact absurd h1.symm hq1
              · exact h1
            obtain ⟨k, hk, hrec⟩ := ih (idx + 1) fuel tail hmh hmem2 hfl
            refine ⟨k + 1, Nat.succ_lt_succ hk, ?_⟩
            rw [decryptHeader, if_neg hns, htk, hdk]
            simp only [hwr, Option.bind, hrec]
            rw [show ENC_HEADER_LEN + (k + 1) * ENC_HEADER_LEN
              = (k + 1 + 1) * ENC_HEADER_LEN from by ring]

theorem mresEncrypt_count {Q fuelS fuelG : ℕ} {rngs : ℕ → ℕ → List ℕ} {rhedge : List ℕ}
    {srng : ℕ → List ℕ} {d_s q_s : ZMod Q} {q_rs : List (ZMod Q)} {pad msg : List Sym}
    {r : List Sym × ℕ}
    (hct : mresEncrypt Q fuelS fuelG rngs rhedge srng d_s q_s q_rs pad msg = some r) :
    r.1.length = q_rs.length * ENC_HEADER_LEN + pad.length
        + (msg.length / BLOCK_LEN + 1) * TAG_LEN + msg.length + SIGNATURE_LEN
      ∧ r.2 = r.1.length := by
  simp only [mresEncrypt] at hct
  set st1 := dupAbsorb (dupNew "veil.mres") (pointEnc q_s) with hst1
  set sq := squeezeScalarNZ Q (hedgeClone st1 (scalarEnc d_s) rhedge) with hsq
  set dek := dupSqueeze sq.2 DEK_LEN with hdekv
  set q_e := sq.1 * Gpt Q with hqe
  set header := dek ++ (pointEnc q_e
    ++ (toLE 8 (q_rs.length * ENC_HEADER_LEN + pad.length)).map Sym.raw) with hheader
  cases hh : mresHeaders Q fuelS rngs 0 d_s q_s header q_rs with
  | none => rw [hh] at hct; exact absurd hct (by simp)
  | some hdrs =>
    simp only [hh] at hct
    set em := encryptMessage (msg.length / BLOCK_LEN + 1)
      (dupRekey (dupAbsorb st1 (hdrs ++ pad)) dek) msg with hem
    cases hs : signerSign Q fuelG srng sq.1 q_e ((hdrs ++ pad) ++ em.1) with
    | none => rw [hs] at hct; exact absurd hct (by simp)
    | some sig =>
      simp only [hs] at hct
      set ecs := dupEncrypt em.2.1 sig with hecs
      have hpair := Option.some.inj hct
      have hr1 : r.1 = (hdrs ++ pad) ++ (em.1 ++ ecs.1) := by rw [← hpair]
      have hr2 : r.2 = (hdrs ++ pad).length + (em.2.2 + ecs.1.length) := by rw [← hpair]
      have hdekl : dek.length = DEK_LEN := by
        rw [hdekv]
        exact dupSqueeze_length _ _
      have hhl : header.length = HEADER_LEN := by
        rw [hheader]
        simp only [List.length_append, pointEnc_length, List.length_map, toLE_length, hdekl]
        rfl
      have hhdl : hdrs.length = q_rs.length * ENC_HEADER_LEN := mresHeaders_length hhl q_rs 0 hh
      have heml := encryptMessage_length (msg.length / BLOCK_LEN + 1)
        (dupRekey (dupAbsorb st1 (hdrs ++ pad)) dek) msg (Nat.lt_succ_self _)
      rw [← hem] at heml
      have hsl : sig.length = SIGNATURE_LEN := signerSign_length hs
      have hecl : ecs.1.length = SIGNATURE_LEN := by
        rw [hecs]
        simp only [dupEncrypt]
        rw [encHead_length, hsl]
      constructor
      · rw [hr1]
        simp only [List.length_append, hhdl, heml.1, hecl]
        ring
      · rw [hr2, hr1]
        simp only [List.length_append, hhdl, heml.1, heml.2, hecl]

theorem mres_roundtrip_core (Q : ℕ) [Fact (Nat.Prime Q)] (hQ : Q < 256 ^ 32)
    {d_s q_s d_r q_r : ZMod Q} (hqs : q_s = d_s * Gpt Q) (hqr : q_r = d_r * Gpt Q)
    (hdr : d_r ≠ 0) {q_rs : List (ZMod Q)} (hmem : q_r ∈ q_rs)
    {fuelS fuelG : ℕ} {rngs : ℕ → ℕ → List ℕ} {rhedge : List ℕ} {srng : ℕ → List ℕ}
    {pad msg : List Sym} {r : List Sym × ℕ}
    (hmo : q_rs.length * ENC_HEADER_LEN + pad.length < 256 ^ 8)
    (hct : mresEncrypt Q fuelS fuelG rngs rhedge srng d_s q_s q_rs pad msg = some r) :
    mresDecrypt Q d_r q_r q_s r.1 = ((true, msg.length), msg) := by
  simp only [mresEncrypt] at hct
  set st1 := dupAbsorb (dupNew "veil.mres") (pointEnc q_s) with hst1
  set sq := squeezeScalarNZ Q (hedgeClone st1 (scalarEnc d_s) rhedge) with hsq
  set dek := dupSqueeze sq.2 DEK_LEN with hdekv
  set q_e := sq.1 * Gpt Q with hqe
  set mo := q_rs.length * ENC_HEADER_LEN + pad.length with hmov
  set header := dek ++ (pointEnc q_e ++ (toLE 8 mo).map Sym.raw) with hheader
  cases hh : mresHeaders Q fuelS rngs 0 d_s q_s header q_rs with
  | none => rw [hh] at hct; exact absurd hct (by simp)
  | some hdrs =>
    simp only [hh] at hct
    set em := encryptMessage (msg.length / BLOCK_LEN + 1)
      (dupRekey (dupAbsorb st1 (hdrs ++ pad)) dek) msg with hem
    cases hs : signerSign Q fuelG srng sq.1 q_e ((hdrs ++ pad) ++ em.1) with
    | none => rw [hs] at hct; exact absurd hct (by simp)
    | some sig =>
      simp only [hs] at hct
      set ecs := dupEncrypt em.2.1 sig with hecs
      have hpair := Option.some.inj hct
      have hr1 : r.1 = (hdrs ++ pad) ++ (em.1 ++ ecs.1) := by rw [← hpair]
      have hdekl : dek.length = DEK_LEN := by
        rw [hdekv]
        exact dupSqueeze_length _ _
      have hhl : header.length = HEADER_LEN := by
        rw [hheader]
        simp only [List.length_append, pointEnc_length, List.length_map, toLE_length, hdekl]
        rfl
      have hhdl : hdrs.length = q_rs.length * ENC_HEADER_LEN := mresHeaders_length hhl q_rs 0 hh
      have hstl : (hdrs ++ pad).length = mo := by
        rw [List.length_append, hhdl, hmov]
      have heml := encryptMessage_length (msg.length / BLOCK_LEN + 1)
        (dupRekey (dupAbsorb st1 (hdrs ++ pad)) dek) msg (Nat.lt_succ_self _)
      rw [← hem] at heml
      have hsl : sig.length = SIGNATURE_LEN := signerSign_length hs
      have hecl : ecs.1.length = SIGNATURE_LEN := by
        rw [hecs]
        simp only [dupEncrypt]
        rw [encHead_length, hsl]
      have hhd : decodeHeader Q header = some (dek, q_e, mo) := by
        rw [hheader]
        exact decodeHeader_mk hQ dek hdekl q_e hmo
      have hEHLpos : 0 < ENC_HEADER_LEN := by
        norm_num [ENC_HEADER_LEN, HEADER_LEN, DEK_LEN, POINT_LEN, sresOVERHEAD]
      have h1 : q_rs.length * ENC_HEADER_LEN
          ≤ (hdrs ++ (pad ++ (em.1 ++ ecs.1))).length := by
        rw [List.length_append, hhdl]
        omega
      have hfuelH : q_rs.length
          ≤ (hdrs ++ (pad ++ (em.1 ++ ecs.1))).length / ENC_HEADER_LEN + 1 := by
        have h2 := (Nat.le_div_iff_mul_le hEHLpos).mpr h1
        omega
      obtain ⟨k, hk, hscan⟩ := decryptHeader_scan Q hQ hqs hqr hdr hhd hhl q_rs 0
        ((hdrs ++ (pad ++ (em.1 ++ ecs.1))).length / ENC_HEADER_LEN + 1)
        (pad ++ (em.1 ++ ecs.1)) hh hmem hfuelH
      rw [hr1, List.append_assoc]
      simp only [mresDecrypt]
      simp only [hscan]
      have hcons : (k + 1) * ENC_HEADER_LEN ≤ mo := by
        have h3 : (k + 1) * ENC_HEADER_LEN ≤ q_rs.length * ENC_HEADER_LEN :=
          Nat.mul_le_mul_right _ hk
        rw [hmov]
        omega
      have hstream : (hdrs ++ (pad ++ (em.1 ++ ecs.1))).take ((k + 1) * ENC_HEADER_LEN) ++
          ((hdrs ++ (pad ++ (em.1 ++ ecs.1))).drop ((k + 1) * ENC_HEADER_LEN)).take
            (mo - (k + 1) * ENC_HEADER_LEN)
          = hdrs ++ pad := by
        rw [← List.take_add,
          show (k + 1) * ENC_HEADER_LEN + (mo - (k + 1) * ENC_HEADER_LEN) = mo from by omega,
          ← List.append_assoc]
        exact take_app _ _ hstl
      have hrest : ((hdrs ++ (pad ++ (em.1 ++ ecs.1))).drop ((k + 1) * ENC_HEADER_LEN)).drop
            (mo - (k + 1) * ENC_HEADER_LEN) = em.1 ++ ecs.1 := by
        rw [List.drop_drop,
          show (k + 1) * ENC_HEADER_LEN + (mo - (k + 1) * ENC_HEADER_LEN) = mo from by omega,
          ← List.append_assoc]
        exact drop_app _ _ hstl
      rw [hstream, hrest, ← hst1]
      have hEBpos : 0 < ENC_BLOCK_LEN := by norm_num [ENC_BLOCK_LEN, BLOCK_LEN, TAG_LEN]
      have hfD : msg.length / BLOCK_LEN < (em.1 ++ ecs.1).length / ENC_BLOCK_LEN + 1 := by
        have h2 : msg.length / BLOCK_LEN * BLOCK_LEN ≤ msg.length := Nat.div_mul_le_self _ _
        have h3 : msg.length / BLOCK_LEN * TAG_LEN ≤ (msg.length / BLOCK_LEN + 1) * TAG_LEN :=
          Nat.mul_le_mul_right _ (Nat.le_succ _)
        have h4 : msg.length / BLOCK_LEN * ENC_BLOCK_LEN ≤ (em.1 ++ ecs.1).length := by
          rw [List.length_append, heml.1, hecl,
            show ENC_BLOCK_LEN = BLOCK_LEN + TAG_LEN from rfl, Nat.mul_add]
          omega
        have h5 := (Nat.le_div_iff_mul_le hEBpos).mpr h4
        omega
      have hem2 : em = encryptMessage ((em.1 ++ ecs.1).length / ENC_BLOCK_LEN + 1)
          (dupRekey (dupAbsorb st1 (hdrs ++ pad)) dek) msg :=
        hem.trans (encryptMessage_fuel _ _ _ _ (Nat.lt_succ_self _) hfD)
      have hdm : decryptMessage ((em.1 ++ ecs.1).length / ENC_BLOCK_LEN + 2)
          (dupRekey (dupAbsorb st1 (hdrs ++ pad)) dek) (em.1 ++ ecs.1)
          = (em.1, msg, msg.length, some (dupDecrypt em.2.1 ecs.1).1) := by
        have hd := decryptMessage_encryptMessage
          ((em.1 ++ ecs.1).length / ENC_BLOCK_LEN + 1)
          (dupRekey (dupAbsorb st1 (hdrs ++ pad)) dek) msg ecs.1 hfD hecl
        rw [← hem2] at hd
        exact hd
      simp only [hdm]
      have hsd : (dupDecrypt em.2.1 ecs.1).1 = sig := by
        rw [hecs, dupDecrypt_dupEncrypt]
      rw [hsd]
      rw [(signerSign_verify Q hQ hqe hs).2]

unseal ncExp ncAux nchunks chunkPow hlenAux encElemAux encElem withNat encLAux encL in
set_option maxRecDepth 400000 in
/-- C1 (counterexample): with no receivers, no padding, and an empty plaintext,
`mres::encrypt` succeeds and writes an 80-byte ciphertext — the final empty
sealed block still carries a `TAG_LEN`-byte tag and there is no 32-byte
prefix term — while the claimed formula
`32 + N·ENC_HEADER_LEN + P + ⌈L/BLOCK_LEN⌉·TAG_LEN + L + SIGNATURE_LEN`
yields 96. -/
theorem mres_ciphertext_length_counterexample :
    (mresEncrypt 5 4 4 (fun _ i => [i]) [1] (fun i => [i, i + 1]) 2 2
        ([] : List (ZMod 5)) [] []).isSome = true ∧
    ((mresEncrypt 5 4 4 (fun _ i => [i]) [1] (fun i => [i, i + 1]) 2 2
        ([] : List (ZMod 5)) [] []).getD ([], 0)).1.length
      ≠ 32 + ([] : List (ZMod 5)).length * ENC_HEADER_LEN + ([] : List Sym).length
          + (([] : List Sym).length + BLOCK_LEN - 1) / BLOCK_LEN * TAG_LEN
          + ([] : List Sym).length + SIGNATURE_LEN := by
  constructor
  · decide
  · decide

/-- C1 (amended): for every sender key pair, receiver list, padding, and
plaintext on which `mres::encrypt` succeeds, the written ciphertext has
exactly `N·ENC_HEADER_LEN + P + (⌊L/BLOCK_LEN⌋ + 1)·TAG_LEN + L +
SIGNATURE_LEN` bytes (every message ends in a short — possibly empty —
sealed block carrying one extra tag, and there is no 32-byte prefix), and
the byte count `encrypt` returns equals that length. -/
theorem mres_ciphertext_length {Q fuelS fuelG : ℕ} {rngs : ℕ → ℕ → List ℕ}
    {rhedge : List ℕ} {srng : ℕ → List ℕ} {d_s q_s : ZMod Q} {q_rs : List (ZMod Q)}
    {pad msg : List Sym} {r : List Sym × ℕ}
    (hct : mresEncrypt Q fuelS fuelG rngs rhedge srng d_s q_s q_rs pad msg = some r) :
    r.1.length = q_rs.length * ENC_HEADER_LEN + pad.length
        + (msg.length / BLOCK_LEN + 1) * TAG_LEN + msg.length + SIGNATURE_LEN
      ∧ r.2 = r.1.length :=
  mresEncrypt_count hct

unseal ncExp ncAux nchunks chunkPow hlenAux encElemAux encElem withNat encLAux encL in
set_option maxRecDepth 400000 in
theorem mres_ciphertext_length_witness :
    ((mresEncrypt 5 4 4 (fun _ i => [i]) [1] (fun i => [i, i + 1]) 2 2
        ([3] : List (ZMod 5)) [Sym.raw 7] [Sym.raw 9]).getD ([], 0)).1.length
      = ([3] : List (ZMod 5)).length * ENC_HEADER_LEN + ([Sym.raw 7] : List Sym).length
          + (([Sym.raw 9] : List Sym).length / BLOCK_LEN + 1) * TAG_LEN
          + ([Sym.raw 9] : List Sym).length + SIGNATURE_LEN
      ∧ ((mresEncrypt 5 4 4 (fun _ i => [i]) [1] (fun i => [i, i + 1]) 2 2
        ([3] : List (ZMod 5)) [Sym.raw 7] [Sym.raw 9]).getD ([], 0)).2
        = ((mresEncrypt 5 4 4 (fun _ i => [i]) [1] (fun i => [i, i + 1]) 2 2
          ([3] : List (ZMod 5)) [Sym.raw 7] [Sym.raw 9]).getD ([], 0)).1.length := by
  have hE : mresEncrypt 5 4 4 (fun _ i => [i]) [1] (fun i => [i, i + 1]) 2 2
      ([3] : List (ZMod 5)) [Sym.raw 7] [Sym.raw 9]
      = some ((mresEncrypt 5 4 4 (fun _ i => [i]) [1] (fun i => [i, i + 1]) 2 2
        ([3] : List (ZMod 5)) [Sym.raw 7] [Sym.raw 9]).getD ([], 0)) := by decide
  exact mres_ciphertext_length hE

/-- C2: for every valid sender key pair, every receiver key pair whose public
key is among the receivers, every padding and plaintext on which
`mres::encrypt` succeeds (and whose headers-plus-padding offset fits in 64
bits), `mres::decrypt` on the produced ciphertext returns a successful
verification flag together with the plaintext length, writes back exactly the
original plaintext, and the count `encrypt` returned equals the ciphertext
length actually written. -/
theorem mres_encrypt_decrypt_roundtrip (Q : ℕ) [Fact (Nat.Prime Q)] (hQ : Q < 256 ^ 32)
    {d_s q_s d_r q_r : ZMod Q} (hqs : q_s = d_s * Gpt Q) (hqr : q_r = d_r * Gpt Q)
    (hdr : d_r ≠ 0) {q_rs : List (ZMod Q)} (hmem : q_r ∈ q_rs)
    {fuelS fuelG : ℕ} {rngs : ℕ → ℕ → List ℕ} {rhedge : List ℕ} {srng : ℕ → List ℕ}
    {pad msg : List Sym} {r : List Sym × ℕ}
    (hmo : q_rs.length * ENC_HEADER_LEN + pad.length < 256 ^ 8)
    (hct : mresEncrypt Q fuelS fuelG rngs rhedge srng d_s q_s q_rs pad msg = some r) :
    mresDecrypt Q d_r q_r q_s r.1 = ((true, msg.length), msg) ∧ r.2 = r.1.length :=
  ⟨mres_roundtrip_core Q hQ hqs hqr hdr hmem hmo hct, (mresEncrypt_count hct).2⟩

unseal ncExp ncAux nchunks chunkPow hlenAux encElemAux encElem withNat encLAux encL in
set_option maxRecDepth 400000 in
theorem mres_encrypt_decrypt_roundtrip_witness :
    mresDecrypt 5 3 3 2
        ((mresEncrypt 5 4 4 (fun _ i => [i]) [1] (fun i => [i, i + 1]) 2 2
          ([3] : List (ZMod 5)) [Sym.raw 7] [Sym.raw 9]).getD ([], 0)).1
      = ((true, 1), [Sym.raw 9]) := by
  have hqs : (2 : ZMod 5) = 2 * Gpt 5 := by decide
  have hqr : (3 : ZMod 5) = 3 * Gpt 5 := by decide
  have hdr : (3 : ZMod 5) ≠ 0 := by decide
  have hQ : (5 : ℕ) < 256 ^ 32 := by norm_num
  have hmem : (3 : ZMod 5) ∈ ([3] : List (ZMod 5)) := by decide
  have hmo : ([3] : List (ZMod 5)).length * ENC_HEADER_LEN
      + ([Sym.raw 7] : List Sym).length < 256 ^ 8 := by
    norm_num [ENC_HEADER_LEN, HEADER_LEN, DEK_LEN, POINT_LEN, sresOVERHEAD]
  have hE : mresEncrypt 5 4 4 (fun _ i => [i]) [1] (fun i => [i, i + 1]) 2 2
      ([3] : List (ZMod 5)) [Sym.raw 7] [Sym.raw 9]
      = some ((mresEncrypt 5 4 4 (fun _ i => [i]) [1] (fun i => [i, i + 1]) 2 2
        ([3] : List (ZMod 5)) [Sym.raw 7] [Sym.raw 9]).getD ([], 0)) := by decide
  haveI : Fact (Nat.Prime 5) := ⟨by norm_num⟩
  exact (mres_encrypt_decrypt_roundtrip 5 hQ hqs hqr hdr hmem hmo hE).1

end VeilModel
